import Mathlib

/-!
# Verification of the AI-lecture-notes pipeline (`src/app.py`)

A shallow embedding of the single-script Streamlit application:

* `chunked_generate` splits a prompt with Python's `textwrap.wrap`
  (chunk size 1500) and calls the generative model once per chunk
  (`app.py` lines 21-28).  The embedding ports CPython's `textwrap`
  module (`_munge_whitespace`, `_split` with `break_on_hyphens`,
  `_handle_long_word`, `_wrap_chunks`, all at default settings) at the
  level of `List Char`.
* `generate_summary` / `generate_questions` wrap the call in
  `try/except`, returning an error string on failure (lines 30-42).
* `run` models the page script from the upload guard to the PDF build
  (lines 125-204): transcription `try/except` with `st.stop()`, the
  `transcript.strip()` guard, and the `story` list handed to
  `doc.build`.

External collaborators (whisper, the generative API) are oracles in an
`Env`; text processing is ported faithfully from the source.
-/

namespace AILecture

/-! ## Character classes

`isWs` is `textwrap._whitespace = "\t\n\x0b\x0c\r "`, the class used by
`wordsep_re` and `_munge_whitespace`.  `pyIsSpace` is Python's
`str.isspace`/`str.strip` whitespace (used by `chunk.strip() == ''`
tests and the `transcript.strip()` guard); it additionally contains the
ASCII separator controls and the Unicode space characters. -/

def isWs (c : Char) : Bool :=
  c = '\t' || c = '\n' || c = '\x0b' || c = '\x0c' || c = '\r' || c = ' '

def pyIsSpace (c : Char) : Bool :=
  isWs c || c = '\x1c' || c = '\x1d' || c = '\x1e' || c = '\x1f' ||
  c = '\x85' || c = '\xa0' || c = '\u1680' ||
  ('\u2000' ≤ c && c ≤ '\u200a') ||
  c = '\u2028' || c = '\u2029' || c = '\u202f' || c = '\u205f' || c = '\u3000'

/-- Python `\w` (ASCII range): alphanumerics and underscore. -/
def isWordChar (c : Char) : Bool := c.isAlphanum || c = '_'

/-- `textwrap` letter class `[^\d\W]`: a word character that is not a digit. -/
def isLetterChar (c : Char) : Bool := isWordChar c && !c.isDigit

/-- `textwrap` word-punctuation class `[\w!"\'&.,?]`. -/
def isWordPunct (c : Char) : Bool :=
  isWordChar c || c = '!' || c = '"' || c = '\'' || c = '&' ||
  c = '.' || c = ',' || c = '?'

/-- `chunk.strip() == ''`: every character is Python whitespace. -/
def allSpace (l : List Char) : Bool := l.all pyIsSpace

/-! ## `_munge_whitespace` (defaults: `expand_tabs=True`, `tabsize=8`,
`replace_whitespace=True`) -/

/-- `str.expandtabs(8)`: tab stops every 8 columns, the column counter
resets after `\n` and `\r`. -/
def expandTabsGo (col : Nat) : List Char → List Char
  | [] => []
  | c :: cs =>
    if c = '\t' then
      List.replicate (8 - col % 8) ' ' ++ expandTabsGo (col + (8 - col % 8)) cs
    else if c = '\n' || c = '\r' then c :: expandTabsGo 0 cs
    else c :: expandTabsGo (col + 1) cs

/-- `unicode_whitespace_trans`: each of `\t\n\x0b\x0c\r ` becomes a space. -/
def replaceWsChar (c : Char) : Char := if isWs c then ' ' else c

/-- `TextWrapper._munge_whitespace`. -/
def mungeChars (s : List Char) : List Char :=
  (expandTabsGo 0 s).map replaceWsChar

/-! ## `_split` (`break_on_hyphens=True`, i.e. `wordsep_re`)

The regex is implemented as a scanner.  `ctx` is the reversed text
already consumed (the regex lookbehinds may cross token boundaries). -/

/-- Lookahead `(?= letter -? letter)` used after a breakable hyphen. -/
def lookaheadLtHyLt : List Char → Bool
  | a :: rest =>
    isLetterChar a &&
      (match rest with
       | b :: rest2 =>
         isLetterChar b ||
           (b = '-' && (match rest2 with
                        | d :: _ => isLetterChar d
                        | [] => false))
       | [] => false)
  | [] => false

/-- Lookahead `(?= -{2,} \w)`: a run of at least two hyphens followed by
a word character (the run is maximal, so the character after it decides). -/
def lookaheadDashes (l : List Char) : Bool :=
  let ds := l.takeWhile (fun c => c = '-')
  decide (2 ≤ ds.length) &&
    (match l.drop ds.length with
     | c :: _ => isWordChar c
     | [] => false)

/-- Lookbehind for a breakable hyphen, reading the reversed context just
before the hyphen: `(?<= letter letter -)` or `(?<= letter - letter -)`. -/
def hyphenLookbehind : List Char → Bool
  | a :: b :: rest =>
    isLetterChar a &&
      (isLetterChar b ||
        (b = '-' && (match rest with
                     | d :: _ => isLetterChar d
                     | [] => false)))
  | _ => false

/-- The word alternative `nws+?(...)` of `wordsep_re`: lazily extend a
non-whitespace token, stopping at the first position where one of the
three closing alternatives matches (in the regex's order).  `acc` is the
reversed token so far (non-empty), `ctx` the reversed text before the
token.  Returns the reversed token and the unconsumed rest. -/
def wordScan (ctx : List Char) (acc : List Char) :
    List Char → List Char × List Char
  | [] => (acc, [])
  | c :: r =>
    if c = '-' && hyphenLookbehind (acc ++ ctx) && lookaheadLtHyLt r then
      (c :: acc, r)
    else if isWs c then (acc, c :: r)
    else if isWordPunct (acc.headD ' ') && lookaheadDashes (c :: r) then
      (acc, c :: r)
    else wordScan ctx (c :: acc) r

theorem dropWhile_length_le (p : Char → Bool) (l : List Char) :
    (l.dropWhile p).length ≤ l.length := by
  induction l with
  | nil => simp [List.dropWhile]
  | cons c r ih =>
    simp only [List.dropWhile]
    split
    · exact le_trans ih (Nat.le_succ _)
    · exact Nat.le_refl _

theorem wordScan_rest_length (ctx acc : List Char) (l : List Char) :
    (wordScan ctx acc l).2.length ≤ l.length := by
  induction l generalizing acc with
  | nil => simp [wordScan]
  | cons c r ih =>
    simp only [wordScan]
    split
    · simp
    · split
      · simp
      · split
        · simp
        · exact le_trans (ih (c :: acc)) (Nat.le_succ _)

/-- `TextWrapper._split` via `wordsep_re.split`, keeping the delimiters
and filtering empty strings: alternating whitespace runs, em-dash runs
and (possibly hyphen-broken) words.  Structural recursion on explicit
fuel (every token consumes at least one character, so the canonical fuel
of `splitChunks` never runs out — `splitGoF_fuel_irrelevant`). -/
def splitGoF : Nat → List Char → List Char → List (List Char)
  | 0, _, _ => []
  | _ + 1, _, [] => []
  | fuel + 1, ctx, c :: r =>
    if isWs c then
      let run := c :: r.takeWhile isWs
      run :: splitGoF fuel (run.reverse ++ ctx) (r.dropWhile isWs)
    else if isWordPunct (ctx.headD ' ') && lookaheadDashes (c :: r) then
      let run := c :: r.takeWhile (fun x => x = '-')
      run :: splitGoF fuel (run.reverse ++ ctx) (r.dropWhile (fun x => x = '-'))
    else
      let p := wordScan ctx [c] r
      p.1.reverse :: splitGoF fuel (p.1 ++ ctx) p.2

/-- Enough fuel makes `splitGoF` independent of the exact amount. -/
theorem splitGoF_fuel_irrelevant (fuel fuel' : Nat) (ctx l : List Char)
    (h : l.length ≤ fuel) (h' : l.length ≤ fuel') :
    splitGoF fuel ctx l = splitGoF fuel' ctx l := by
  induction fuel using Nat.strong_induction_on generalizing ctx l fuel' with
  | _ fuel ih =>
    match fuel, l, fuel' with
    | 0, [], 0 => rfl
    | 0, [], _ + 1 => rfl
    | _ + 1, [], 0 => rfl
    | _ + 1, [], _ + 1 => rfl
    | fuel + 1, c :: r, fuel' + 1 =>
      simp only [List.length_cons, Nat.succ_le_succ_iff] at h h'
      simp only [splitGoF]
      split
      · rw [ih fuel (Nat.lt_succ_self _) _ _ _
            (le_trans (dropWhile_length_le _ _) h)
            (le_trans (dropWhile_length_le _ _) h')]
      · split
        · rw [ih fuel (Nat.lt_succ_self _) _ _ _
              (le_trans (dropWhile_length_le _ _) h)
              (le_trans (dropWhile_length_le _ _) h')]
        · rw [ih fuel (Nat.lt_succ_self _) _ _ _
              (le_trans (wordScan_rest_length _ _ _) h)
              (le_trans (wordScan_rest_length _ _ _) h')]

def splitChunks (s : List Char) : List (List Char) :=
  splitGoF (s.length + 1) [] s

/-! ## `_handle_long_word` (`break_long_words=True`,
`break_on_hyphens=True`) -/

/-- Index of the last hyphen in a list (`str.rfind('-', 0, e)` is
`lastHyIdx (l.take e)`). -/
def lastHyIdx : List Char → Option Nat
  | [] => none
  | c :: cs =>
    match lastHyIdx cs with
    | some i => some (i + 1)
    | none => if c = '-' then some 0 else none

/-- `TextWrapper._handle_long_word`: carve `chunk[:end]` for the current
line, leave `chunk[end:]` in the queue. -/
def handleLongWord (w curLen : Nat) (chunk : List Char) :
    List Char × List Char :=
  let spaceLeft := if w < 1 then 1 else w - curLen
  let endIdx :=
    if spaceLeft < chunk.length then
      match lastHyIdx (chunk.take spaceLeft) with
      | some h =>
        if 0 < h && (chunk.take h).any (fun c => !(c = '-')) then h + 1
        else spaceLeft
      | none => spaceLeft
    else spaceLeft
  (chunk.take endIdx, chunk.drop endIdx)

/-! ## `_wrap_chunks` (defaults: empty indents, `drop_whitespace=True`,
`max_lines=None`) -/

def sumLen (cs : List (List Char)) : Nat := (cs.map List.length).sum

/-- The inner `while` of `_wrap_chunks`: greedily move chunks onto the
current line while the running length stays within the width. -/
def takeFits (w : Nat) (cur : Nat) :
    List (List Char) → List (List Char) × List (List Char)
  | [] => ([], [])
  | c :: cs =>
    if cur + c.length ≤ w then
      let p := takeFits w (cur + c.length) cs
      (c :: p.1, p.2)
    else ([], c :: cs)

/-- Drop the final all-whitespace chunk of the line, if any
(`if cur_line and cur_line[-1].strip() == '': del cur_line[-1]`). -/
def dropTrailingWsChunk (cur : List (List Char)) : List (List Char) :=
  match cur.getLast? with
  | some l => if allSpace l then cur.dropLast else cur
  | none => cur

/-- The line-filling part of one `_wrap_chunks` iteration: the greedy
inner `while`, then `_handle_long_word` when the next chunk exceeds the
width.  Returns the chunks of the current line and the remaining queue. -/
def fillLine (w : Nat) (chunks1 : List (List Char)) :
    List (List Char) × List (List Char) :=
  let p := takeFits w 0 chunks1
  match p.2 with
  | r :: rs =>
    if w < r.length then
      let hl := handleLongWord w (sumLen p.1) r
      (p.1 ++ [hl.1], hl.2 :: rs)
    else (p.1, p.2)
  | [] => (p.1, [])

/-- One iteration of the outer `while chunks` loop of `_wrap_chunks`:
optionally drop a leading whitespace chunk (only once output lines
exist), fill the line, drop trailing whitespace, and emit the line if
the chunk list is non-empty.  Returns the emitted line (if any) and the
remaining queue. -/
def wrapStep (w : Nat) (linesEmpty : Bool) (chunks : List (List Char)) :
    Option (List Char) × List (List Char) :=
  let chunks1 :=
    match chunks with
    | c :: cs => if !linesEmpty && allSpace c then cs else chunks
    | [] => chunks
  let q := fillLine w chunks1
  let cur := dropTrailingWsChunk q.1
  (if cur.isEmpty then none else some cur.flatten, q.2)

/-- The outer loop of `_wrap_chunks`, with explicit fuel (the measure
`sumLen + length` strictly decreases at every step, see
`wrapStep_measure`, so the canonical fuel of `wrapChars` never runs
out — `wrapLoopF_fuel_irrelevant`). -/
def wrapLoopF (w : Nat) : Nat → Bool → List (List Char) → List (List Char)
  | 0, _, _ => []
  | _ + 1, _, [] => []
  | fuel + 1, linesEmpty, c :: cs =>
    let s := wrapStep w linesEmpty (c :: cs)
    match s.1 with
    | some line => line :: wrapLoopF w fuel false s.2
    | none => wrapLoopF w fuel linesEmpty s.2

/-- `textwrap.wrap(s, w)` on character lists. -/
def wrapChars (s : List Char) (w : Nat) : List (List Char) :=
  let chunks := splitChunks (mungeChars s)
  wrapLoopF w (sumLen chunks + chunks.length + 1) true chunks

/-- `textwrap.wrap` on strings. -/
def pywrap (s : String) (w : Nat) : List String :=
  (wrapChars s.data w).map fun l => ⟨l⟩

/-! ## Groundwork lemmas about the `textwrap` embedding -/

/-- `wordsep_re.split` with canonical fuel; every token consumes at
least one character, so `l.length + 1` steps always suffice. -/
def splitW (ctx l : List Char) : List (List Char) :=
  splitGoF (l.length + 1) ctx l

theorem splitGoF_eq_splitW (fuel : Nat) (ctx l : List Char)
    (h : l.length ≤ fuel) : splitGoF fuel ctx l = splitW ctx l :=
  splitGoF_fuel_irrelevant fuel (l.length + 1) ctx l h (Nat.le_succ _)

theorem splitChunks_eq_splitW (s : List Char) :
    splitChunks s = splitW [] s := rfl

theorem splitW_nil (ctx : List Char) : splitW ctx [] = [] := rfl

/-- Unfolding `splitW` on a whitespace head: the token is the maximal
whitespace run. -/
theorem splitW_ws_cons (ctx : List Char) (c : Char) (r : List Char)
    (hc : isWs c = true) :
    splitW ctx (c :: r) =
      (c :: r.takeWhile isWs) ::
        splitW ((c :: r.takeWhile isWs).reverse ++ ctx) (r.dropWhile isWs) := by
  show splitGoF (r.length + 1 + 1) ctx (c :: r) = _
  rw [splitGoF]
  simp only [hc, if_pos]
  rw [splitGoF_eq_splitW _ _ _ (le_trans (dropWhile_length_le _ _) (Nat.le_succ _))]

/-- Unfolding `splitW` on a non-whitespace head when the em-dash
alternative does not fire. -/
theorem splitW_word_cons (ctx : List Char) (c : Char) (r : List Char)
    (hc : isWs c = false)
    (hd : (isWordPunct (ctx.headD ' ') && lookaheadDashes (c :: r)) = false) :
    splitW ctx (c :: r) =
      (wordScan ctx [c] r).1.reverse ::
        splitW ((wordScan ctx [c] r).1 ++ ctx) (wordScan ctx [c] r).2 := by
  show splitGoF (r.length + 1 + 1) ctx (c :: r) = _
  rw [splitGoF]
  simp only [hc, hd, Bool.false_eq_true, if_false]
  rw [splitGoF_eq_splitW _ _ _
    (le_trans (wordScan_rest_length _ _ _) (Nat.le_succ _))]

theorem takeWhile_append_all (p : Char → Bool) (run rest : List Char)
    (hw : ∀ c ∈ run, p c = true)
    (hr : rest = [] ∨ ∃ c r', rest = c :: r' ∧ p c = false) :
    (run ++ rest).takeWhile p = run := by
  induction run with
  | nil =>
    rcases hr with h | ⟨c, r', rfl, hc⟩
    · subst h; rfl
    · simp [List.takeWhile, hc]
  | cons d w ih =>
    simp only [List.cons_append, List.takeWhile,
      hw d (List.mem_cons_self _ _), List.append_eq]
    rw [ih (fun x hx => hw x (List.mem_cons_of_mem _ hx))]

theorem dropWhile_append_all (p : Char → Bool) (run rest : List Char)
    (hw : ∀ c ∈ run, p c = true)
    (hr : rest = [] ∨ ∃ c r', rest = c :: r' ∧ p c = false) :
    (run ++ rest).dropWhile p = rest := by
  induction run with
  | nil =>
    rcases hr with h | ⟨c, r', rfl, hc⟩
    · subst h; rfl
    · simp [List.dropWhile, hc]
  | cons d w ih =>
    simp only [List.cons_append, List.dropWhile,
      hw d (List.mem_cons_self _ _)]
    exact ih (fun x hx => hw x (List.mem_cons_of_mem _ hx))

/-- `wordScan` on a plain word: no hyphens inside, whitespace (or the
end of input) right after.  The whole word becomes the token. -/
theorem wordScan_plain (ctx acc word rest : List Char)
    (hw : ∀ c ∈ word, isWs c = false ∧ c ≠ '-')
    (hr : rest = [] ∨ ∃ c r', rest = c :: r' ∧ isWs c = true) :
    wordScan ctx acc (word ++ rest) = (word.reverse ++ acc, rest) := by
  induction word generalizing acc with
  | nil =>
    rcases hr with h | ⟨c, r', rfl, hc⟩
    · subst h; simp [wordScan]
    · have hcd : c ≠ '-' := by
        intro h; subst h; simp [isWs] at hc
      simp [wordScan, hcd, hc]
  | cons c w ih =>
    have hc := hw c (List.mem_cons_self _ _)
    have hdash : lookaheadDashes (c :: (w ++ rest)) = false := by
      simp [lookaheadDashes, List.takeWhile, hc.2]
    simp only [List.cons_append, wordScan, hc.1, hc.2, hdash,
      Bool.and_false, Bool.false_and, Bool.and_self, decide_eq_true_eq,
      Bool.false_eq_true, if_false, ite_false]
    rw [if_neg (by simp [hc.2]), if_neg (by simp [hdash])]
    simp only [List.append_eq]
    rw [ih (c :: acc) (fun x hx => hw x (List.mem_cons_of_mem _ hx))]
    simp

/-- A plain word at the head of the input becomes one token. -/
theorem splitW_plainWord (ctx word rest : List Char)
    (hne : word ≠ [])
    (hw : ∀ c ∈ word, isWs c = false ∧ c ≠ '-')
    (hr : rest = [] ∨ ∃ c r', rest = c :: r' ∧ isWs c = true) :
    splitW ctx (word ++ rest) =
      word :: splitW (word.reverse ++ ctx) rest := by
  match word, hne with
  | c :: w, _ =>
    have hc := hw c (List.mem_cons_self _ _)
    have hdash : lookaheadDashes (c :: (w ++ rest)) = false := by
      simp [lookaheadDashes, List.takeWhile, hc.2]
    rw [List.cons_append, splitW_word_cons ctx c (w ++ rest) hc.1
      (by simp [hdash])]
    rw [wordScan_plain ctx [c] w rest
      (fun x hx => hw x (List.mem_cons_of_mem _ hx)) hr]
    simp

/-- A whitespace run followed by a non-whitespace character (or the end
of input) becomes one token. -/
theorem splitW_wsRun (ctx run rest : List Char)
    (hne : run ≠ [])
    (hw : ∀ c ∈ run, isWs c = true)
    (hr : rest = [] ∨ ∃ c r', rest = c :: r' ∧ isWs c = false) :
    splitW ctx (run ++ rest) =
      run :: splitW (run.reverse ++ ctx) rest := by
  match run, hne with
  | c :: w, _ =>
    have hr' : rest = [] ∨ ∃ d r', rest = d :: r' ∧ isWs d = false := by
      rcases hr with h | ⟨d, r', h, hd⟩
      · exact Or.inl h
      · exact Or.inr ⟨d, r', h, hd⟩
    have htk : (w ++ rest).takeWhile isWs = w :=
      takeWhile_append_all isWs w rest
        (fun x hx => hw x (List.mem_cons_of_mem _ hx)) hr'
    have hdw : (w ++ rest).dropWhile isWs = rest :=
      dropWhile_append_all isWs w rest
        (fun x hx => hw x (List.mem_cons_of_mem _ hx)) hr'
    rw [List.cons_append, splitW_ws_cons ctx c (w ++ rest)
      (hw c (List.mem_cons_self _ _))]
    rw [htk, hdw]

/-- `wordScan` only ever extends the accumulator. -/
theorem wordScan_partition (ctx acc l : List Char) :
    (wordScan ctx acc l).1.reverse ++ (wordScan ctx acc l).2 =
      acc.reverse ++ l := by
  induction l generalizing acc with
  | nil => simp [wordScan]
  | cons c r ih =>
    simp only [wordScan]
    split
    · simp
    · split
      · simp
      · split
        · simp
        · rw [ih (c :: acc)]; simp

/-- The split is a partition of the input text. -/
theorem splitW_flatten (ctx l : List Char) :
    (splitW ctx l).flatten = l := by
  have main : ∀ fuel ctx l, l.length ≤ fuel →
      (splitGoF fuel ctx l).flatten = l := by
    intro fuel
    induction fuel with
    | zero =>
      intro ctx l h
      match l, h with
      | [], _ => rfl
    | succ fuel ih =>
      intro ctx l h
      match l with
      | [] => rfl
      | c :: r =>
        simp only [List.length_cons, Nat.succ_le_succ_iff] at h
        simp only [splitGoF]
        split
        · simp only [List.flatten_cons]
          rw [ih _ _ (le_trans (dropWhile_length_le _ _) h)]
          simp [List.takeWhile_append_dropWhile]
        · split
          · simp only [List.flatten_cons]
            rw [ih _ _ (le_trans (dropWhile_length_le _ _) h)]
            simp [List.takeWhile_append_dropWhile]
          · simp only [List.flatten_cons]
            rw [ih _ _ (le_trans (wordScan_rest_length _ _ _) h)]
            have := wordScan_partition ctx [c] r
            simpa using this
  exact main _ ctx l (Nat.le_succ _)

/-- Every token of the split is non-empty. -/
theorem splitW_ne_nil (ctx l : List Char) :
    ∀ ch ∈ splitW ctx l, ch ≠ [] := by
  have acc_ne : ∀ l ctx acc, acc ≠ [] → (wordScan ctx acc l).1 ≠ [] := by
    intro l
    induction l with
    | nil => intro ctx acc h; simpa [wordScan] using h
    | cons c r ih =>
      intro ctx acc h
      simp only [wordScan]
      split
      · simp
      · split
        · simpa using h
        · split
          · simpa using h
          · exact ih _ _ (by simp)
  have main : ∀ fuel ctx l, ∀ ch ∈ splitGoF fuel ctx l, ch ≠ [] := by
    intro fuel
    induction fuel with
    | zero => intro ctx l ch h; simp [splitGoF] at h
    | succ fuel ih =>
      intro ctx l ch h
      match l with
      | [] => simp [splitGoF] at h
      | c :: r =>
        simp only [splitGoF] at h
        split at h
        · rcases List.mem_cons.mp h with rfl | h
          · simp
          · exact ih _ _ _ h
        · split at h
          · rcases List.mem_cons.mp h with rfl | h
            · simp
            · exact ih _ _ _ h
          · rcases List.mem_cons.mp h with rfl | h
            · have := acc_ne r ctx [c] (by simp)
              simpa using this
            · exact ih _ _ _ h
  exact main _ ctx l

/-! ### Lemmas about `_wrap_chunks` -/

theorem sumLen_append (a b : List (List Char)) :
    sumLen (a ++ b) = sumLen a + sumLen b := by
  simp [sumLen]

theorem sumLen_eq_length_flatten (cs : List (List Char)) :
    sumLen cs = cs.flatten.length := by
  induction cs with
  | nil => rfl
  | cons c cs ih =>
    simp only [sumLen, List.map_cons, List.sum_cons, List.flatten_cons,
      List.length_append]
    simp only [sumLen] at ih
    omega

theorem takeFits_partition (w cur : Nat) (cs : List (List Char)) :
    (takeFits w cur cs).1 ++ (takeFits w cur cs).2 = cs := by
  induction cs generalizing cur with
  | nil => rfl
  | cons c cs ih =>
    simp only [takeFits]
    split
    · simpa using ih (cur + c.length)
    · rfl

theorem takeFits_all (w cur : Nat) (cs : List (List Char))
    (h : cur + sumLen cs ≤ w) : takeFits w cur cs = (cs, []) := by
  induction cs generalizing cur with
  | nil => rfl
  | cons c cs ih =>
    simp only [sumLen, List.map_cons, List.sum_cons] at h
    have h1 : cur + c.length ≤ w := by omega
    have h2 : cur + c.length + sumLen cs ≤ w := by
      simp only [sumLen]; omega
    simp only [takeFits, if_pos h1, ih (cur + c.length) h2]

theorem takeFits_append (w cur : Nat) (ts rest : List (List Char))
    (h : cur + sumLen ts ≤ w) :
    takeFits w cur (ts ++ rest) =
      (ts ++ (takeFits w (cur + sumLen ts) rest).1,
       (takeFits w (cur + sumLen ts) rest).2) := by
  induction ts generalizing cur with
  | nil => simp [sumLen]
  | cons t ts ih =>
    simp only [sumLen, List.map_cons, List.sum_cons] at h
    have h1 : cur + t.length ≤ w := by omega
    simp only [List.cons_append, takeFits, if_pos h1, List.append_eq]
    rw [ih (cur + t.length) (by simp only [sumLen]; omega)]
    have h2 : cur + t.length + sumLen ts = cur + sumLen (t :: ts) := by
      simp only [sumLen, List.map_cons, List.sum_cons]; omega
    rw [h2]

theorem handleLongWord_partition (w cur : Nat) (chunk : List Char) :
    (handleLongWord w cur chunk).1 ++ (handleLongWord w cur chunk).2 = chunk := by
  simp [handleLongWord, List.take_append_drop]

/-- When the current length is zero (the greedy pass consumed nothing),
the long-word handler always carves off at least one character. -/
theorem handleLongWord_snd_lt (w : Nat) (chunk : List Char)
    (hc : chunk ≠ []) :
    (handleLongWord w 0 chunk).2.length < chunk.length := by
  have hlen : 0 < chunk.length := List.length_pos.mpr hc
  simp only [handleLongWord, List.length_drop]
  generalize hsl : (if w < 1 then 1 else w - 0) = sl
  have hsl1 : 1 ≤ sl := by rw [← hsl]; split <;> omega
  have h1 : ∀ e : Nat, 1 ≤ e → chunk.length - e < chunk.length := by
    intro e he; omega
  apply h1
  split
  · split
    · split
      · exact Nat.succ_le_succ (Nat.zero_le _)
      · exact hsl1
    · exact hsl1
  · exact hsl1

/-- Termination measure of the outer `_wrap_chunks` loop: total queued
characters plus queue length. -/
def measureL (cs : List (List Char)) : Nat := sumLen cs + cs.length

theorem handleLongWord_snd_le (w cur : Nat) (chunk : List Char) :
    (handleLongWord w cur chunk).2.length ≤ chunk.length := by
  simp only [handleLongWord, List.length_drop]
  omega

theorem sumLen_cons (c : List Char) (cs : List (List Char)) :
    sumLen (c :: cs) = c.length + sumLen cs := by
  simp [sumLen]

theorem fillLine_partition (w : Nat) (cs : List (List Char)) :
    (fillLine w cs).1.flatten ++ (fillLine w cs).2.flatten = cs.flatten := by
  rcases htf : takeFits w 0 cs with ⟨a, b⟩
  have hpart := takeFits_partition w 0 cs
  rw [htf] at hpart
  have hflat : a.flatten ++ b.flatten = cs.flatten := by
    rw [← List.flatten_append, hpart]
  simp only [fillLine, htf]
  cases b with
  | nil => simpa using hflat
  | cons r rs =>
    simp only
    split
    · rcases hhl : handleLongWord w (sumLen a) r with ⟨p1, p2⟩
      have hr : p1 ++ p2 = r := by
        have := handleLongWord_partition w (sumLen a) r
        rw [hhl] at this; exact this
      simp only [List.flatten_append, List.flatten_cons, List.flatten_nil,
        List.append_nil, List.append_assoc]
      rw [← List.append_assoc p1 p2, hr]
      simp only [List.flatten_cons, List.append_assoc] at hflat
      exact hflat
    · exact hflat

theorem sumLen_nil : sumLen ([] : List (List Char)) = 0 := rfl

theorem fillLine_measure_lt (w : Nat) (cs : List (List Char))
    (h : cs ≠ []) : measureL (fillLine w cs).2 < measureL cs := by
  rcases htf : takeFits w 0 cs with ⟨a, b⟩
  have hpart := takeFits_partition w 0 cs
  rw [htf] at hpart
  simp only at hpart
  have hsum : sumLen cs = sumLen a + sumLen b := by
    rw [← hpart, sumLen_append]
  have hlena : cs.length = a.length + b.length := by
    rw [← hpart]; simp
  have hpos : 0 < cs.length := List.length_pos.mpr h
  simp only [fillLine, htf]
  cases b with
  | nil =>
    simp only [measureL, sumLen_nil, List.length_nil]
    omega
  | cons r rs =>
    simp only
    split
    · rename_i hlong
      have hr : r ≠ [] := by
        intro hr0; rw [hr0] at hlong; simp at hlong
      cases a with
      | nil =>
        have hlt := handleLongWord_snd_lt w r hr
        simp only [sumLen_nil, sumLen_cons, List.length_nil, List.length_cons,
          Nat.zero_add] at hsum hlena
        simp only [sumLen_nil, measureL, sumLen_cons, List.length_cons]
        omega
      | cons a0 a' =>
        have hle := handleLongWord_snd_le w (sumLen (a0 :: a')) r
        simp only [sumLen_cons, List.length_cons] at hsum hlena hle
        simp only [measureL, sumLen_cons, List.length_cons]
        omega
    · rename_i hnotlong
      cases a with
      | nil =>
        exfalso
        simp only [List.nil_append] at hpart
        subst hpart
        simp only [takeFits] at htf
        split at htf
        · simp at htf
        · rename_i hnofit
          simp only [Nat.zero_add] at hnofit
          omega
      | cons a0 a' =>
        simp only [sumLen_cons, List.length_cons] at hsum hlena
        simp only [measureL, sumLen_cons, List.length_cons]
        omega

theorem flatten_prefix_of_prefix {a b : List (List Char)} (h : a <+: b) :
    a.flatten <+: b.flatten := by
  rcases h with ⟨t, rfl⟩
  exact ⟨t.flatten, (List.flatten_append _ _).symm⟩

theorem dropTrailing_flatten_prefix (l : List (List Char)) :
    (dropTrailingWsChunk l).flatten <+: l.flatten := by
  simp only [dropTrailingWsChunk]
  split
  · split
    · exact flatten_prefix_of_prefix (List.dropLast_prefix l)
    · exact List.prefix_refl _
  · exact List.prefix_refl _

theorem prefix_suffix_infix {a : List Char} {b c : List Char}
    (h1 : a <+: b) (h2 : b <:+ c) : a <:+: c := by
  rcases h1 with ⟨t, rfl⟩
  rcases h2 with ⟨s, rfl⟩
  exact ⟨s, t, by simp⟩

theorem measureL_tail_lt (c : List Char) (cs : List (List Char)) :
    measureL cs < measureL (c :: cs) := by
  simp only [measureL, sumLen_cons, List.length_cons]
  omega

theorem fillLine_nil (w : Nat) : fillLine w [] = ([], []) := rfl

theorem wrapStep_measure_lt (w : Nat) (b : Bool) (cs : List (List Char))
    (h : cs ≠ []) : measureL (wrapStep w b cs).2 < measureL cs := by
  match cs, h with
  | c :: cs', _ =>
    simp only [wrapStep]
    split
    · cases cs' with
      | nil =>
        simp only [fillLine_nil]
        exact measureL_tail_lt c []
      | cons d ds =>
        exact lt_trans (fillLine_measure_lt w (d :: ds) (by simp))
          (measureL_tail_lt c (d :: ds))
    · exact fillLine_measure_lt w (c :: cs') (by simp)

theorem wrapStep_rest_suffix (w : Nat) (b : Bool) (cs : List (List Char)) :
    (wrapStep w b cs).2.flatten <:+ cs.flatten := by
  cases cs with
  | nil => exact List.suffix_refl _
  | cons c cs' =>
    simp only [wrapStep]
    split
    · have h2 : (fillLine w cs').2.flatten <:+ cs'.flatten :=
        ⟨(fillLine w cs').1.flatten, fillLine_partition w cs'⟩
      exact h2.trans ⟨c, List.flatten_cons.symm⟩
    · exact ⟨(fillLine w (c :: cs')).1.flatten, fillLine_partition w (c :: cs')⟩

theorem wrapStep_line_infix (w : Nat) (b : Bool) (cs : List (List Char))
    (line : List Char) (h : (wrapStep w b cs).1 = some line) :
    line <:+: cs.flatten := by
  cases cs with
  | nil =>
    simp only [wrapStep, fillLine_nil, dropTrailingWsChunk] at h
    simp at h
  | cons c cs' =>
    simp only [wrapStep] at h
    split at h
    · -- leading whitespace chunk dropped: the line comes from cs'
      split at h
      · exact absurd h (by simp)
      · have hline : line = (dropTrailingWsChunk (fillLine w cs').1).flatten := by
          cases h; rfl
        subst hline
        have hpre : (dropTrailingWsChunk (fillLine w cs').1).flatten <+:
            cs'.flatten :=
          ( dropTrailing_flatten_prefix _).trans
            ⟨(fillLine w cs').2.flatten, fillLine_partition w cs'⟩
        exact prefix_suffix_infix hpre ⟨c, List.flatten_cons.symm⟩
    · split at h
      · exact absurd h (by simp)
      · have hline : line = (dropTrailingWsChunk (fillLine w (c :: cs')).1).flatten := by
          cases h; rfl
        subst hline
        have hpre : (dropTrailingWsChunk (fillLine w (c :: cs')).1).flatten <+:
            (c :: cs').flatten :=
          ( dropTrailing_flatten_prefix _).trans
            ⟨(fillLine w (c :: cs')).2.flatten, fillLine_partition w (c :: cs')⟩
        exact prefix_suffix_infix hpre (List.suffix_refl _)

theorem wrapLoopF_fuel_irrelevant (w : Nat) (fuel fuel' : Nat) (b : Bool)
    (cs : List (List Char))
    (h : measureL cs < fuel) (h' : measureL cs < fuel') :
    wrapLoopF w fuel b cs = wrapLoopF w fuel' b cs := by
  induction fuel using Nat.strong_induction_on generalizing b cs fuel' with
  | _ fuel ih =>
    match fuel, cs, fuel' with
    | 0, cs, _ => exact absurd h (Nat.not_lt_zero _)
    | _ + 1, cs, 0 => exact absurd h' (Nat.not_lt_zero _)
    | fuel + 1, [], fuel' + 1 => rfl
    | fuel + 1, c :: cs', fuel' + 1 =>
      have hm := wrapStep_measure_lt w b (c :: cs') (by simp)
      simp only [wrapLoopF]
      cases hs : (wrapStep w b (c :: cs')).1 with
      | some line =>
        simp only [hs]
        rw [ih fuel (Nat.lt_succ_self _) fuel' false
          ((wrapStep w b (c :: cs')).2) (by omega) (by omega)]
      | none =>
        simp only [hs]
        rw [ih fuel (Nat.lt_succ_self _) fuel' b
          ((wrapStep w b (c :: cs')).2) (by omega) (by omega)]

/-- `_wrap_chunks` with canonical fuel. -/
def wrapW (w : Nat) (b : Bool) (cs : List (List Char)) : List (List Char) :=
  wrapLoopF w (measureL cs + 1) b cs

theorem wrapChars_eq_wrapW (s : List Char) (w : Nat) :
    wrapChars s w = wrapW w true (splitChunks (mungeChars s)) := rfl

theorem wrapW_nil (w : Nat) (b : Bool) : wrapW w b [] = [] := rfl

theorem wrapW_step (w : Nat) (b : Bool) (cs : List (List Char))
    (h : cs ≠ []) :
    wrapW w b cs =
      match (wrapStep w b cs).1 with
      | some line => line :: wrapW w false (wrapStep w b cs).2
      | none => wrapW w b (wrapStep w b cs).2 := by
  match cs, h with
  | c :: cs', _ =>
    have hm := wrapStep_measure_lt w b (c :: cs') (by simp)
    show wrapLoopF w (measureL (c :: cs') + 1) b (c :: cs') = _
    simp only [wrapLoopF]
    cases hs : (wrapStep w b (c :: cs')).1 with
    | some line =>
      simp only [hs]
      rw [wrapLoopF_fuel_irrelevant w (measureL (c :: cs'))
        (measureL (wrapStep w b (c :: cs')).2 + 1) false _ hm
        (Nat.lt_succ_self _)]
      rfl
    | none =>
      simp only [hs]
      rw [wrapLoopF_fuel_irrelevant w (measureL (c :: cs'))
        (measureL (wrapStep w b (c :: cs')).2 + 1) b _ hm
        (Nat.lt_succ_self _)]
      rfl

theorem measureL_eq_zero (cs : List (List Char)) (h : measureL cs = 0) :
    cs = [] := by
  cases cs with
  | nil => rfl
  | cons c cs' =>
    exfalso
    simp only [measureL, sumLen_cons, List.length_cons] at h
    omega

theorem wrapW_lines_infix (w : Nat) (b : Bool) (cs : List (List Char)) :
    ∀ line ∈ wrapW w b cs, line <:+: cs.flatten := by
  have main : ∀ n w b (cs : List (List Char)), measureL cs ≤ n →
      ∀ line ∈ wrapW w b cs, line <:+: cs.flatten := by
    intro n
    induction n with
    | zero =>
      intro w b cs hm line hline
      rw [measureL_eq_zero cs (Nat.le_zero.mp hm)] at hline
      simp [wrapW_nil] at hline
    | succ n ih =>
      intro w b cs hm line hline
      cases cs with
      | nil => simp [wrapW_nil] at hline
      | cons c cs' =>
        rw [wrapW_step w b (c :: cs') (by simp)] at hline
        have hmlt := wrapStep_measure_lt w b (c :: cs') (by simp)
        have hsuf := wrapStep_rest_suffix w b (c :: cs')
        cases hs : (wrapStep w b (c :: cs')).1 with
        | some l =>
          rw [hs] at hline
          rcases List.mem_cons.mp hline with rfl | hline
          · exact wrapStep_line_infix w b (c :: cs') line hs
          · have := ih w false _ (by omega) line hline
            exact this.trans hsuf.isInfix
        | none =>
          rw [hs] at hline
          have := ih w b _ (by omega) line hline
          exact this.trans hsuf.isInfix
  exact main (measureL cs) w b cs (Nat.le_refl _)

/-- `expandtabs` is the identity on tab-free text. -/
theorem expandTabsGo_no_tab (l : List Char) (h : ∀ c ∈ l, c ≠ '\t') :
    ∀ col, expandTabsGo col l = l := by
  induction l with
  | nil => intro col; rfl
  | cons c cs ih =>
    intro col
    have hc : c ≠ '\t' := h c (List.mem_cons_self _ _)
    simp only [expandTabsGo, hc, if_false]
    split
    · rw [ih (fun x hx => h x (List.mem_cons_of_mem _ hx)) 0]
    · rw [ih (fun x hx => h x (List.mem_cons_of_mem _ hx)) (col + 1)]

/-- `expandtabs` on a tab-, newline- and CR-free prefix passes it
through with the column advanced past it. -/
theorem expandTabsGo_clean_append (l r : List Char)
    (h : ∀ c ∈ l, c ≠ '\t' ∧ c ≠ '\n' ∧ c ≠ '\r') :
    ∀ col, expandTabsGo col (l ++ r) = l ++ expandTabsGo (col + l.length) r := by
  induction l with
  | nil => intro col; simp
  | cons c cs ih =>
    intro col
    have hc := h c (List.mem_cons_self _ _)
    simp only [List.cons_append, expandTabsGo, hc.1, if_false,
      hc.2.1, hc.2.2, Bool.or_self, Bool.false_eq_true]
    rw [if_neg (by simp [hc.2.1, hc.2.2])]
    simp only [List.append_eq]
    rw [ih (fun x hx => h x (List.mem_cons_of_mem _ hx)) (col + 1)]
    simp only [List.length_cons]
    rw [show col + 1 + cs.length = col + (cs.length + 1) from by omega]

/-- All whitespace stays whitespace under `expandtabs`. -/
theorem expandTabsGo_all_ws (l : List Char) (h : ∀ c ∈ l, isWs c = true) :
    ∀ col c', c' ∈ expandTabsGo col l → isWs c' = true := by
  induction l with
  | nil => intro col c' h'; simp [expandTabsGo] at h'
  | cons c cs ih =>
    intro col c' h'
    have hc := h c (List.mem_cons_self _ _)
    simp only [expandTabsGo] at h'
    split at h'
    · rcases List.mem_append.mp h' with h' | h'
      · have := List.eq_of_mem_replicate h'
        subst this; rfl
      · exact ih (fun x hx => h x (List.mem_cons_of_mem _ hx)) _ _ h'
    · split at h'
      · rcases List.mem_cons.mp h' with rfl | h'
        · exact hc
        · exact ih (fun x hx => h x (List.mem_cons_of_mem _ hx)) _ _ h'
      · rcases List.mem_cons.mp h' with rfl | h'
        · exact hc
        · exact ih (fun x hx => h x (List.mem_cons_of_mem _ hx)) _ _ h'

/-- Munging all-whitespace text yields all spaces. -/
theorem mungeChars_all_ws (l : List Char) (h : ∀ c ∈ l, isWs c = true) :
    ∀ c' ∈ mungeChars l, c' = ' ' := by
  intro c' h'
  simp only [mungeChars] at h'
  rcases List.mem_map.mp h' with ⟨x, hx, rfl⟩
  have := expandTabsGo_all_ws l h 0 x hx
  simp [replaceWsChar, this]

/-- Munging preserves length on tab-free input. -/
theorem mungeChars_length (s : List Char) (h : ∀ c ∈ s, c ≠ '\t') :
    (mungeChars s).length = s.length := by
  simp [mungeChars, expandTabsGo_no_tab s h 0]

/-! ### All-whitespace inputs produce no lines at all -/

theorem allSpace_take (l : List Char) (h : allSpace l = true) (n : Nat) :
    allSpace (l.take n) = true := by
  simp only [allSpace, List.all_eq_true] at h ⊢
  intro c hc
  exact h c (List.mem_of_mem_take hc)

theorem allSpace_drop (l : List Char) (h : allSpace l = true) (n : Nat) :
    allSpace (l.drop n) = true := by
  simp only [allSpace, List.all_eq_true] at h ⊢
  intro c hc
  exact h c (List.mem_of_mem_drop hc)

/-- A single all-whitespace chunk yields no output lines: it is either
dropped as trailing whitespace or (when over-long) sliced into pieces
that are themselves dropped. -/
theorem wrapW_single_allSpace (w : Nat) (b : Bool) (l : List Char)
    (h : allSpace l = true) : wrapW w b [l] = [] := by
  have main : ∀ n (l : List Char), l.length ≤ n → allSpace l = true →
      ∀ b, wrapW w b [l] = [] := by
    intro n
    induction n with
    | zero =>
      intro l hl hsp b
      have h0 : l = [] := List.eq_nil_of_length_eq_zero (Nat.le_zero.mp hl)
      subst h0
      rw [wrapW_step w b [[]] (by simp)]
      cases b <;>
        simp [wrapStep, fillLine, takeFits, dropTrailingWsChunk, allSpace,
          wrapW_nil]
    | succ n ih =>
      intro l hl hsp b
      cases b with
      | false =>
        rw [wrapW_step w false [l] (by simp)]
        have hstep : wrapStep w false [l] = (none, []) := by
          simp [wrapStep, hsp, fillLine_nil, dropTrailingWsChunk]
        rw [hstep]
        exact wrapW_nil w false
      | true =>
        rw [wrapW_step w true [l] (by simp)]
        by_cases hfit : l.length ≤ w
        · have htf : takeFits w 0 [l] = ([l], []) := by
            simp [takeFits, hfit]
          have hstep : wrapStep w true [l] = (none, []) := by
            simp [wrapStep, fillLine, htf, dropTrailingWsChunk, hsp]
          rw [hstep]
          exact wrapW_nil w true
        · have htf : takeFits w 0 [l] = ([], [l]) := by
            simp only [takeFits]
            rw [if_neg (by omega)]
          have hpc : allSpace (handleLongWord w 0 l).1 = true := by
            simp only [handleLongWord]
            exact allSpace_take l hsp _
          have hwl : w < l.length := by omega
          have hfl : fillLine w [l] =
              ([(handleLongWord w 0 l).1], [(handleLongWord w 0 l).2]) := by
            simp only [fillLine, htf]
            rw [if_pos hwl]
            simp [sumLen_nil]
          have hstep : wrapStep w true [l] =
              (none, [(handleLongWord w 0 l).2]) := by
            simp only [wrapStep, Bool.not_true, Bool.false_and,
              Bool.false_eq_true, if_false, hfl]
            simp [dropTrailingWsChunk, hpc]
          rw [hstep]
          have hrest : allSpace (handleLongWord w 0 l).2 = true := by
            simp only [handleLongWord]
            exact allSpace_drop l hsp _
          have hne : l ≠ [] := by
            intro h0; subst h0
            simp at hfit
          have hlt : (handleLongWord w 0 l).2.length < l.length :=
            handleLongWord_snd_lt w l hne
          exact ih _ (by omega) hrest true
  exact main l.length l (Nat.le_refl _) h b

/-- When every chunk fits on one line, `_wrap_chunks` emits at most one
line: everything joined, minus a trailing whitespace chunk. -/
theorem wrapW_total_fits (w : Nat) (cs : List (List Char))
    (h : cs ≠ []) (hsum : sumLen cs ≤ w) :
    wrapW w true cs =
      if (dropTrailingWsChunk cs).isEmpty then []
      else [(dropTrailingWsChunk cs).flatten] := by
  rw [wrapW_step w true cs h]
  have hstep : wrapStep w true cs =
      (if (dropTrailingWsChunk cs).isEmpty then none
       else some (dropTrailingWsChunk cs).flatten, []) := by
    match cs, h with
    | c :: cs', _ =>
      simp only [wrapStep, Bool.not_true, Bool.false_and, Bool.false_eq_true,
        if_false, fillLine]
      rw [takeFits_all w 0 (c :: cs') (by omega)]
  by_cases hP : (dropTrailingWsChunk cs).isEmpty = true
  · simp only [hstep, if_pos hP]
    exact wrapW_nil w true
  · simp only [hstep, if_neg hP]
    simp [wrapW_nil]

/-! ## `chunked_generate` (`app.py` lines 21-28)

The generative model is an oracle `String → Except String String`: `.ok`
is `response.text`, `.error` a raised exception.  The loop body
`response = model.generate_content(c); results.append(response.text)`
stops at the first exception, which propagates to the caller. -/

/-- The `for c in chunks` loop: returns the prompts of the calls
actually made (in order) and either the collected responses or the
first exception. -/
def runChunks (model : String → Except String String) :
    List String → List String × Except String (List String)
  | [] => ([], .ok [])
  | c :: cs =>
    match model c with
    | .error e => ([c], .error e)
    | .ok r =>
      let p := runChunks model cs
      (c :: p.1, p.2.map fun l => r :: l)

/-- `chunked_generate(prompt_text, model_name, chunk_size=1500)`:
`chunks = textwrap.wrap(prompt_text, chunk_size)`, one
`generate_content` call per chunk, `"\n".join(results)`.  The first
component records the prompts of the model calls made. -/
def chunked_generate (model : String → Except String String)
    (prompt_text : String) (chunk_size : Nat := 1500) :
    List String × Except String String :=
  let chunks := pywrap prompt_text chunk_size
  let p := runChunks model chunks
  (p.1, p.2.map fun rs => String.intercalate "\n" rs)

/-! ## `generate_summary` / `generate_questions` (lines 30-42) -/

def summaryInstr : String :=
  "Summarize the following lecture in clear, structured bullet points:"

def questionsInstr : String :=
  "Generate 5 practice questions and 5 quick study tips for revision based on this lecture:"

/-- The f-string prompt of `generate_summary`. -/
def summaryPrompt (transcript : String) : String :=
  summaryInstr ++ "\n\n" ++ transcript

/-- The f-string prompt of `generate_questions`. -/
def questionsPrompt (transcript : String) : String :=
  questionsInstr ++ "\n\n" ++ transcript

/-! ### Splitting the summary instruction prompt

`generate_summary` prepends a fixed instruction; `wordsep_re` cuts it
into nine words separated by single spaces, and the `"\n\n"` separator
(munged to two spaces) merges with any leading whitespace of the
transcript into one whitespace run. -/

/-- The tokens `wordsep_re` produces for the summary instruction. -/
def instrTokens : List (List Char) :=
  ["Summarize".data, [' '], "the".data, [' '], "following".data, [' '], "lecture".data, [' '], "in".data, [' '], "clear,".data, [' '], "structured".data, [' '], "bullet".data, [' '], "points:".data]

theorem instrTokens_flatten : instrTokens.flatten = summaryInstr.data := by
  decide

theorem instrTokens_sumLen : sumLen instrTokens = 67 := by decide

/-- A single space followed by a plain word makes two tokens. -/
theorem splitW_space_word (ctx word rest2 : List Char)
    (hne : word ≠ [])
    (hw : ∀ c ∈ word, isWs c = false ∧ c ≠ '-')
    (hr2 : rest2 = [] ∨ ∃ c r', rest2 = c :: r' ∧ isWs c = true) :
    splitW ctx (' ' :: (word ++ rest2)) =
      [' '] :: word :: splitW (word.reverse ++ ' ' :: ctx) rest2 := by
  match word, hne with
  | hd :: tl, _ =>
    have hhd := hw hd (List.mem_cons_self _ _)
    rw [List.cons_append, splitW_ws_cons ctx ' ' (hd :: (tl ++ rest2)) (by decide)]
    simp only [List.takeWhile_cons, hhd.1, Bool.false_eq_true, if_false,
      List.dropWhile_cons, List.reverse_cons, List.reverse_nil,
      List.nil_append, List.cons_append]
    rw [← List.cons_append hd tl rest2]
    rw [splitW_plainWord (' ' :: ctx) (hd :: tl) rest2 (by simp) hw hr2]
    simp [List.append_assoc]

/-- Splitting the munged summary prompt: the nine instruction tokens and
eight separating spaces come first, then the `"\n\n"`-derived double
space merged with the transcript's leading whitespace, then the split of
the rest of the transcript. -/
theorem splitW_instr (ctx m : List Char) :
    ∃ ctx2, splitW ctx (summaryInstr.data ++ ' ' :: ' ' :: m) =
      instrTokens ++ ((' ' :: ' ' :: m.takeWhile isWs) ::
        splitW ctx2 (m.dropWhile isWs)) := by
  have h0 : summaryInstr.data ++ ' ' :: ' ' :: m = "Summarize".data ++ (' ' :: ("the".data ++ (' ' :: ("following".data ++ (' ' :: ("lecture".data ++ (' ' :: ("in".data ++ (' ' :: ("clear,".data ++ (' ' :: ("structured".data ++ (' ' :: ("bullet".data ++ (' ' :: ("points:".data ++ (' ' :: ' ' :: m))))))))))))))))) := by
    rw [show summaryInstr.data = "Summarize".data ++ (' ' :: ("the".data ++ (' ' :: ("following".data ++ (' ' :: ("lecture".data ++ (' ' :: ("in".data ++ (' ' :: ("clear,".data ++ (' ' :: ("structured".data ++ (' ' :: ("bullet".data ++ (' ' :: ("points:".data)))))))))))))))) from by decide]
    simp only [List.append_assoc, List.cons_append]
  rw [h0]
  rw [splitW_plainWord ctx "Summarize".data _ (by decide) (by decide)
    (Or.inr ⟨' ', _, rfl, by decide⟩)]
  rw [splitW_space_word _ "the".data _ (by decide) (by decide)
    (Or.inr ⟨' ', _, rfl, by decide⟩)]
  rw [splitW_space_word _ "following".data _ (by decide) (by decide)
    (Or.inr ⟨' ', _, rfl, by decide⟩)]
  rw [splitW_space_word _ "lecture".data _ (by decide) (by decide)
    (Or.inr ⟨' ', _, rfl, by decide⟩)]
  rw [splitW_space_word _ "in".data _ (by decide) (by decide)
    (Or.inr ⟨' ', _, rfl, by decide⟩)]
  rw [splitW_space_word _ "clear,".data _ (by decide) (by decide)
    (Or.inr ⟨' ', _, rfl, by decide⟩)]
  rw [splitW_space_word _ "structured".data _ (by decide) (by decide)
    (Or.inr ⟨' ', _, rfl, by decide⟩)]
  rw [splitW_space_word _ "bullet".data _ (by decide) (by decide)
    (Or.inr ⟨' ', _, rfl, by decide⟩)]
  rw [splitW_space_word _ "points:".data (' ' :: ' ' :: m) (by decide)
    (by decide) (Or.inr ⟨' ', ' ' :: m, rfl, by decide⟩)]
  rw [splitW_ws_cons _ ' ' (' ' :: m) (by decide)]
  simp only [List.takeWhile_cons, List.dropWhile_cons,
    show isWs ' ' = true from by decide, if_true]
  exact ⟨_, rfl⟩

/-- Munging the summary prompt: the instruction passes through
unchanged and the `"\n\n"` becomes two spaces. -/
theorem munge_summaryPromptChars (u : List Char) :
    mungeChars (summaryInstr.data ++ '\n' :: '\n' :: u) =
      summaryInstr.data ++ ' ' :: ' ' :: mungeChars u := by
  simp only [mungeChars]
  rw [expandTabsGo_clean_append summaryInstr.data ('\n' :: '\n' :: u)
    (by decide) 0]
  have h1 : expandTabsGo (0 + summaryInstr.data.length) ('\n' :: '\n' :: u) =
      '\n' :: '\n' :: expandTabsGo 0 u := by
    simp [expandTabsGo]
  rw [h1]
  simp only [List.map_append, List.map_cons]
  rw [show List.map replaceWsChar summaryInstr.data = summaryInstr.data from by decide]
  rw [show replaceWsChar '\n' = ' ' from by decide]


/-- `generate_summary`: `try: return chunked_generate(prompt)
except Exception as e: return f"❌ Error generating summary: {e}"`. -/
def generate_summary (model : String → Except String String)
    (transcript : String) : String :=
  match (chunked_generate model (summaryPrompt transcript)).2 with
  | .ok s => s
  | .error e => "❌ Error generating summary: " ++ e

/-- `generate_questions`, same shape with its own prompt and marker. -/
def generate_questions (model : String → Except String String)
    (transcript : String) : String :=
  match (chunked_generate model (questionsPrompt transcript)).2 with
  | .ok s => s
  | .error e => "❌ Error generating questions: " ++ e

/-! ### Structure of the wrapped summary prompt -/

/-- When all calls succeed, the loop calls the model once per chunk, in
order, and collects the responses in order. -/
theorem runChunks_ok (f : String → String) (cs : List String) :
    runChunks (fun s => .ok (f s)) cs = (cs, .ok (cs.map f)) := by
  induction cs with
  | nil => rfl
  | cons c cs ih => simp [runChunks, ih, Except.map]

theorem summaryPrompt_data (t : String) :
    (summaryPrompt t).data = summaryInstr.data ++ '\n' :: '\n' :: t.data := by
  show (summaryInstr ++ "\n\n" ++ t).data = _
  rw [String.data_append, String.data_append]
  rw [show ("\n\n" : String).data = ['\n', '\n'] from by decide]
  simp

theorem sumLen_splitChunks (Y : List Char) :
    sumLen (splitChunks Y) = Y.length := by
  rw [sumLen_eq_length_flatten, splitChunks_eq_splitW, splitW_flatten]

/-- The chunk list of the munged summary prompt: instruction tokens,
then the merged whitespace run, then the split transcript. -/
theorem summaryPrompt_chunks (t : String) :
    ∃ ctx2, splitChunks (mungeChars (summaryPrompt t).data) =
      instrTokens ++ ((' ' :: ' ' :: (mungeChars t.data).takeWhile isWs) ::
        splitW ctx2 ((mungeChars t.data).dropWhile isWs)) := by
  rw [summaryPrompt_data, munge_summaryPromptChars, splitChunks_eq_splitW]
  exact splitW_instr [] (mungeChars t.data)

theorem dropTrailing_append (x y : List (List Char)) (hy : y ≠ []) :
    dropTrailingWsChunk (x ++ y) = x ++ dropTrailingWsChunk y := by
  simp only [dropTrailingWsChunk]
  rw [List.getLast?_append_of_ne_nil x hy]
  cases hl : y.getLast? with
  | none => rfl
  | some l =>
    split
    · rw [List.dropLast_append_of_ne_nil x hy]
      split <;> rfl
    · rfl

theorem dropTrailing_instrTokens :
    dropTrailingWsChunk instrTokens = instrTokens := by decide

/-- One fill of a line starting with the instruction tokens keeps them
all on the line (they fit well within the width). -/
theorem fillLine_tokens_prefix (w : Nat) (ts r : List (List Char))
    (h : sumLen ts ≤ w) :
    ∃ tail, (fillLine w (ts ++ r)).1 = ts ++ tail := by
  simp only [fillLine]
  rw [takeFits_append w 0 ts r (by omega)]
  cases hB : (takeFits w (0 + sumLen ts) r).2 with
  | nil => exact ⟨(takeFits w (0 + sumLen ts) r).1, rfl⟩
  | cons r0 rs =>
    simp only
    split
    · exact ⟨(takeFits w (0 + sumLen ts) r).1 ++
        [(handleLongWord w (sumLen (ts ++ (takeFits w (0 + sumLen ts) r).1)) r0).1],
        by rw [List.append_assoc]⟩
    · exact ⟨(takeFits w (0 + sumLen ts) r).1, rfl⟩

/-- Wrapping a chunk list that starts with the instruction tokens: the
first line exists and starts with the instruction, and every later line
is drawn from the remaining chunks only. -/
theorem wrapW_instr_structure (r : List (List Char)) :
    ∃ line rest, wrapW 1500 true (instrTokens ++ r) = line :: rest ∧
      summaryInstr.data <+: line ∧
      ∀ l ∈ rest, l <:+: r.flatten := by
  have hsum : sumLen instrTokens ≤ 1500 := by rw [instrTokens_sumLen]; omega
  obtain ⟨tail, htail⟩ := fillLine_tokens_prefix 1500 instrTokens r hsum
  have hne : instrTokens ++ r ≠ [] := by simp [instrTokens]
  -- the step: no leading drop since no lines exist yet
  have hq1 : (wrapStep 1500 true (instrTokens ++ r)).1 =
      some (dropTrailingWsChunk ((fillLine 1500 (instrTokens ++ r)).1)).flatten ∧
      (wrapStep 1500 true (instrTokens ++ r)).2 =
      (fillLine 1500 (instrTokens ++ r)).2 := by
    have hshape : ∃ c cs', instrTokens ++ r = c :: cs' := by
      simp [instrTokens]
    obtain ⟨c, cs', hcs⟩ := hshape
    rw [hcs]
    simp only [wrapStep, Bool.not_true, Bool.false_and, Bool.false_eq_true,
      if_false]
    rw [← hcs, htail]
    constructor
    · rw [if_neg]
      intro hempty
      cases htail2 : dropTrailingWsChunk (instrTokens ++ tail) with
      | nil =>
        rcases List.eq_nil_or_concat tail with rfl | ⟨t0, x, hcat⟩
        · rw [List.append_nil, dropTrailing_instrTokens] at htail2
          simp [instrTokens] at htail2
        · rw [List.concat_eq_append] at hcat
          subst hcat
          rw [dropTrailing_append instrTokens (t0 ++ [x]) (by simp)] at htail2
          simp [instrTokens] at htail2
      | cons d ds => rw [htail2] at hempty; simp at hempty
    · trivial
  have hprefix : summaryInstr.data <+:
      (dropTrailingWsChunk ((fillLine 1500 (instrTokens ++ r)).1)).flatten := by
    rw [htail]
    rcases List.eq_nil_or_concat tail with rfl | ⟨t0, x, hcat⟩
    · rw [List.append_nil, dropTrailing_instrTokens, instrTokens_flatten]
    · rw [List.concat_eq_append] at hcat
      subst hcat
      rw [dropTrailing_append instrTokens (t0 ++ [x]) (by simp)]
      rw [List.flatten_append, instrTokens_flatten]
      exact ⟨_, rfl⟩
  have hsuffix : (fillLine 1500 (instrTokens ++ r)).2.flatten <:+ r.flatten := by
    have hpart := fillLine_partition 1500 (instrTokens ++ r)
    rw [htail] at hpart
    rw [List.flatten_append, List.flatten_append, instrTokens_flatten,
      List.append_assoc] at hpart
    have := List.append_cancel_left hpart
    exact ⟨tail.flatten, this⟩
  refine ⟨(dropTrailingWsChunk ((fillLine 1500 (instrTokens ++ r)).1)).flatten,
    wrapW 1500 false (fillLine 1500 (instrTokens ++ r)).2, ?_, hprefix, ?_⟩
  · rw [wrapW_step 1500 true (instrTokens ++ r) hne]
    rw [hq1.1, hq1.2]
  · intro l hl
    exact ( wrapW_lines_infix 1500 false _ l hl).trans hsuffix.isInfix

/-! ## The PDF story (lines 153-203)

`reportlab` flow elements are data; `doc.build(story)` consumes the
`story` list.  Styles are identified by name. -/

inductive Flowable
  | spacer (a b : Nat)
  | paragraph (text style : String)
  | listFlowable (items : List Flowable)
  | listItem (item : Flowable)

/-- Python truthiness of `s.strip()`: some character is not whitespace. -/
def stripTruthy (s : String) : Bool := s.data.any fun c => !pyIsSpace c

/-- Lines 184-188: transcript heading, spacer, one highlighted paragraph
per `textwrap.wrap(transcript, 90)` line, trailing spacer. -/
def transcriptSection (transcript : String) : List Flowable :=
  [.paragraph "📝 Transcript:" "SubtitleStyle", .spacer 1 10] ++
  (pywrap transcript 90).map (fun l => .paragraph l "HighlightStyle") ++
  [.spacer 1 20]

/-- Lines 191-195: summary heading, spacer, one highlighted paragraph
per `textwrap.wrap(summary_text, 90)` line, trailing spacer. -/
def summarySection (summary_text : String) : List Flowable :=
  [.paragraph "📚 AI Summary:" "SubtitleStyle", .spacer 1 10] ++
  (pywrap summary_text 90).map (fun l => .paragraph l "HighlightStyle") ++
  [.spacer 1 20]

/-- Lines 198-201: questions heading, spacer, then a `ListFlowable` of
`ListItem`s, one per non-blank line of `questions_text.split('\n')`. -/
def questionsSection (questions_text : String) : List Flowable :=
  [.paragraph "🎯 AI-Generated Practice Questions & Study Tips:" "SubtitleStyle",
   .spacer 1 10,
   .listFlowable
     (((questions_text.split (fun c => c = '\n')).filter stripTruthy).map
       fun q => .listItem (.paragraph q "HighlightStyle"))]

/-- Lines 178-201: the full `story` list passed to `doc.build`. -/
def buildStory (transcript summary_text questions_text : String) :
    List Flowable :=
  [.spacer 1 20, .paragraph "📝 AI Lecture Notes Generator" "TitleStyle",
   .spacer 1 20] ++
  transcriptSection transcript ++
  summarySection summary_text ++
  questionsSection questions_text

/-! ## The page script (lines 125-204)

`Env` holds the outcome of each external call: `loadModel` is
`whisper.load_model("tiny")` (line 130), `transcribeResult` the
temp-file write plus `whisper_model.transcribe(tmp_path)["text"]`
(lines 131-135), `genModel` the generative API.  `run` is the
straight-line script under `if uploaded_file:`; `.error` outcomes are
the raised exceptions.  The trace records the externally visible
effects in program order; note that the script never deletes the
temporary file (`NamedTemporaryFile(delete=False)`, no `os.remove` /
cleanup anywhere), so no path emits `tempFileDeleted`. -/

structure Env where
  uploaded : Bool
  loadModel : Except String Unit
  transcribeResult : Except String String
  genModel : String → Except String String

inductive Event
  | tempFileCreated
  | tempFileDeleted
  | transcriptShown
  | errorShown (msg : String)
  | scriptStopped
  | summaryShown
  | questionsShown
  | pdfBuilt
deriving DecidableEq, Repr

structure RunResult where
  events : List Event
  transcript : Option String
  summary : Option String
  questions : Option String
  pdf : Option (List Flowable)
  stopped : Bool

/-- One execution of the script body (lines 125-204).  The transcription
`try/except` ends in `st.stop()` on failure; the `if transcript.strip():`
guard skips summarization, questions and the PDF for a whitespace-only
transcript; otherwise the three stages run in order and `doc.build`
receives `buildStory`. -/
def run (env : Env) : RunResult :=
  if !env.uploaded then ⟨[], none, none, none, none, false⟩
  else
    match env.loadModel with
    | .error e =>
        ⟨[.errorShown ("❌ Error during transcription: " ++ e), .scriptStopped],
         none, none, none, none, true⟩
    | .ok _ =>
      match env.transcribeResult with
      | .error e =>
          ⟨[.tempFileCreated,
            .errorShown ("❌ Error during transcription: " ++ e), .scriptStopped],
           none, none, none, none, true⟩
      | .ok transcript =>
        if stripTruthy transcript then
          let summary_text := generate_summary env.genModel transcript
          let questions_text := generate_questions env.genModel transcript
          let story := buildStory transcript summary_text questions_text
          ⟨[.tempFileCreated, .transcriptShown, .summaryShown,
            .questionsShown, .pdfBuilt],
           some transcript, some summary_text, some questions_text,
           some story, false⟩
        else
          ⟨[.tempFileCreated, .transcriptShown],
           some transcript, none, none, none, false⟩

/-! ## Claim theorems -/

/-- `a` occurs at a strictly earlier position than `b` in the trace. -/
def eventsBefore (a b : Event) (l : List Event) : Prop :=
  ∃ i j, i < j ∧ l.get? i = some a ∧ l.get? j = some b

/-- C4: PDF rendering never starts before both the transcript and the
summary text exist.  Whenever the trace contains `pdfBuilt`,
transcription succeeded, the transcript and summary values exist, and
both `transcriptShown` and `summaryShown` precede `pdfBuilt` in program
order. -/
theorem C4_pdf_after_transcript_and_summary (env : Env)
    (h : Event.pdfBuilt ∈ (run env).events) :
    env.transcribeResult.isOk = true ∧
    ((run env).transcript).isSome = true ∧
    ((run env).summary).isSome = true ∧
    eventsBefore .transcriptShown .pdfBuilt (run env).events ∧
    eventsBefore .summaryShown .pdfBuilt (run env).events := by
  cases hu : env.uploaded with
  | false => simp [run, hu] at h
  | true =>
    rcases hl : env.loadModel with e | u
    · simp [run, hu, hl] at h
    · rcases ht : env.transcribeResult with e | t
      · simp [run, hu, hl, ht] at h
      · by_cases hst : stripTruthy t = true
        · refine ⟨by simp [ht, Except.isOk, Except.toBool], ?_, ?_, ?_, ?_⟩ <;>
            simp only [run, hu, Bool.not_true, Bool.false_eq_true, if_false,
              hl, ht, hst, if_true]
          · rfl
          · rfl
          · exact ⟨1, 4, by omega, rfl, rfl⟩
          · exact ⟨2, 4, by omega, rfl, rfl⟩
        · simp [run, hu, hl, ht, hst] at h

/-- C4 witness at a concrete environment. -/
theorem C4_pdf_after_transcript_and_summary_witness :
    Event.pdfBuilt ∈
      (run ⟨true, .ok (), .ok "hello", fun _ => .ok "R"⟩).events ∧
    ((run ⟨true, .ok (), .ok "hello", fun _ => .ok "R"⟩).summary).isSome = true := by
  refine ⟨?_, (C4_pdf_after_transcript_and_summary _ ?_).2.2.1⟩ <;>
    simp [run, stripTruthy, pyIsSpace, isWs]

/-- C5: every exception in the transcription block (model load or the
transcribe call) is caught, shown to the user, and stops the script:
nothing downstream runs and no summary, questions or PDF exist. -/
theorem C5_transcription_error_aborts (env : Env) (e : String)
    (hu : env.uploaded = true) :
    (env.loadModel = .error e →
      (run env).events =
        [.errorShown ("❌ Error during transcription: " ++ e), .scriptStopped] ∧
      (run env).stopped = true ∧ (run env).summary = none ∧
      (run env).questions = none ∧ (run env).pdf = none ∧
      Event.summaryShown ∉ (run env).events ∧
      Event.pdfBuilt ∉ (run env).events) ∧
    (env.transcribeResult = .error e → env.loadModel.isOk = true →
      (run env).events =
        [.tempFileCreated,
         .errorShown ("❌ Error during transcription: " ++ e), .scriptStopped] ∧
      (run env).stopped = true ∧ (run env).summary = none ∧
      (run env).questions = none ∧ (run env).pdf = none ∧
      Event.summaryShown ∉ (run env).events ∧
      Event.pdfBuilt ∉ (run env).events) := by
  constructor
  · intro hl
    simp [run, hu, hl]
  · intro ht hl
    rcases h2 : env.loadModel with e2 | u
    · rw [h2] at hl; simp [Except.isOk, Except.toBool] at hl
    · simp [run, hu, h2, ht]

/-- C5 witness at a concrete environment. -/
theorem C5_transcription_error_aborts_witness :
    ((⟨true, .ok (), .error "no ffmpeg", fun _ => .ok "R"⟩ : Env).uploaded = true) ∧
    (run ⟨true, .ok (), .error "no ffmpeg", fun _ => .ok "R"⟩).stopped = true := by
  refine ⟨rfl, ?_⟩
  exact ((C5_transcription_error_aborts
    ⟨true, .ok (), .error "no ffmpeg", fun _ => .ok "R"⟩ "no ffmpeg" rfl).2
    rfl rfl).2.1

/-- C8: the temporary audio file (`NamedTemporaryFile(delete=False)`) is
created whenever the transcription block is reached, and no execution
path of the script ever deletes it. -/
theorem C8_temp_file_never_deleted (env : Env) :
    Event.tempFileDeleted ∉ (run env).events ∧
    (env.uploaded = true → env.loadModel.isOk = true →
      Event.tempFileCreated ∈ (run env).events) := by
  constructor
  · cases hu : env.uploaded with
    | false => simp [run, hu]
    | true =>
      rcases hl : env.loadModel with e | u
      · simp [run, hu, hl]
      · rcases ht : env.transcribeResult with e | t
        · simp [run, hu, hl, ht]
        · by_cases hst : stripTruthy t = true <;> simp [run, hu, hl, ht, hst]
  · intro hu hl
    rcases h2 : env.loadModel with e2 | u
    · rw [h2] at hl; simp [Except.isOk, Except.toBool] at hl
    · rcases ht : env.transcribeResult with e | t
      · simp [run, hu, h2, ht]
      · by_cases hst : stripTruthy t = true <;> simp [run, hu, h2, ht, hst]

/-- C8 witness at a concrete environment. -/
theorem C8_temp_file_never_deleted_witness :
    ((⟨true, .ok (), .ok "hi", fun _ => .ok "R"⟩ : Env).uploaded = true) ∧
    Event.tempFileCreated ∈
      (run ⟨true, .ok (), .ok "hi", fun _ => .ok "R"⟩).events := by
  exact ⟨rfl, (C8_temp_file_never_deleted
    ⟨true, .ok (), .ok "hi", fun _ => .ok "R"⟩).2 rfl rfl⟩

/-- C3: a summarization or question-generation exception is caught at
the adapter, turned into a marker-prefixed string that is treated as
valid output (the script is not stopped), and that string is the
section-body input of the PDF story handed to `doc.build`; the summary
section body is exactly the wrapped error string. -/
theorem C3_error_string_into_pdf (env : Env) (t e : String)
    (hu : env.uploaded = true) (hl : env.loadModel = .ok ())
    (ht : env.transcribeResult = .ok t) (hst : stripTruthy t = true) :
    ((chunked_generate env.genModel (summaryPrompt t)).2 = .error e →
      (run env).summary = some ("❌ Error generating summary: " ++ e) ∧
      (run env).stopped = false ∧
      (run env).pdf = some (buildStory t ("❌ Error generating summary: " ++ e)
        (generate_questions env.genModel t)) ∧
      summarySection ("❌ Error generating summary: " ++ e) =
        [.paragraph "📚 AI Summary:" "SubtitleStyle", .spacer 1 10] ++
        (pywrap ("❌ Error generating summary: " ++ e) 90).map
          (fun l => .paragraph l "HighlightStyle") ++ [.spacer 1 20]) ∧
    ((chunked_generate env.genModel (questionsPrompt t)).2 = .error e →
      (run env).questions = some ("❌ Error generating questions: " ++ e) ∧
      (run env).stopped = false ∧
      (run env).pdf = some (buildStory t (generate_summary env.genModel t)
        ("❌ Error generating questions: " ++ e))) := by
  constructor
  · intro hgen
    have hsum : generate_summary env.genModel t =
        "❌ Error generating summary: " ++ e := by
      unfold generate_summary
      rw [hgen]
    refine ⟨?_, ?_, ?_, rfl⟩ <;>
      simp [run, hu, hl, ht, hst, hsum]
  · intro hgen
    have hq : generate_questions env.genModel t =
        "❌ Error generating questions: " ++ e := by
      unfold generate_questions
      rw [hgen]
    refine ⟨?_, ?_, ?_⟩ <;>
      simp [run, hu, hl, ht, hst, hq]

set_option maxHeartbeats 2000000 in
/-- C3 witness at a concrete environment whose model always raises. -/
theorem C3_error_string_into_pdf_witness :
    ((⟨true, .ok (), .ok "hi", fun _ => .error "boom"⟩ : Env).uploaded = true) ∧
    stripTruthy "hi" = true ∧
    (chunked_generate (fun _ => .error "boom") (summaryPrompt "hi")).2 =
      .error "boom" ∧
    (run ⟨true, .ok (), .ok "hi", fun _ => .error "boom"⟩).summary =
      some ("❌ Error generating summary: " ++ "boom") := by
  have h1 : (chunked_generate (fun _ => .error "boom")
      (summaryPrompt "hi")).2 = .error "boom" := by
    have : pywrap (summaryPrompt "hi") 1500 ≠ [] := by decide
    rcases hc : pywrap (summaryPrompt "hi") 1500 with _ | ⟨c, cs⟩
    · exact absurd hc this
    · simp [chunked_generate, hc, runChunks, Except.map]
  refine ⟨rfl, by decide, h1, ?_⟩
  exact ((C3_error_string_into_pdf ⟨true, .ok (), .ok "hi", fun _ => .error "boom"⟩
    "hi" "boom" rfl rfl rfl (by decide)).1 h1).1

/-- C7 counterexample: with an empty transcript the pipeline reaches
the `transcript.strip()` guard and builds no PDF at all, contradicting
the claim that the PDF is still built for an empty transcript. -/
theorem C7_counterexample :
    (run ⟨true, .ok (), .ok "", fun _ => .ok "R"⟩).transcript = some "" ∧
    (run ⟨true, .ok (), .ok "", fun _ => .ok "R"⟩).pdf = none := by
  constructor <;> simp [run, stripTruthy]

/-- C7 (amended): the document renderer itself performs no
non-emptiness validation — an empty summary or transcript string still
yields the section heading with an empty body — but an empty or
whitespace-only transcript never reaches the renderer: the
`transcript.strip()` guard skips summarization and the PDF build. -/
theorem C7_renderer_no_validation (env : Env) (t : String)
    (hu : env.uploaded = true) (hl : env.loadModel = .ok ())
    (ht : env.transcribeResult = .ok t) :
    (stripTruthy t = false →
      (run env).pdf = none ∧ (run env).summary = none) ∧
    (stripTruthy t = true →
      (run env).pdf = some (buildStory t (generate_summary env.genModel t)
        (generate_questions env.genModel t))) ∧
    summarySection "" =
      [.paragraph "📚 AI Summary:" "SubtitleStyle", .spacer 1 10,
       .spacer 1 20] ∧
    transcriptSection "" =
      [.paragraph "📝 Transcript:" "SubtitleStyle", .spacer 1 10,
       .spacer 1 20] := by
  refine ⟨?_, ?_, rfl, rfl⟩
  · intro hst
    constructor <;> simp [run, hu, hl, ht, hst]
  · intro hst
    simp [run, hu, hl, ht, hst]

/-- C7 witness at concrete environments for both branches. -/
theorem C7_renderer_no_validation_witness :
    stripTruthy "" = false ∧
    (run ⟨true, .ok (), .ok "", fun _ => .ok "R"⟩).pdf = none ∧
    stripTruthy "hi" = true ∧
    (run ⟨true, .ok (), .ok "hi", fun _ => .ok "R"⟩).pdf =
      some (buildStory "hi" (generate_summary (fun _ => .ok "R") "hi")
        (generate_questions (fun _ => .ok "R") "hi")) := by
  refine ⟨by decide, ?_, by decide, ?_⟩
  · exact ((C7_renderer_no_validation _ "" rfl rfl rfl).1 (by decide)).1
  · exact (C7_renderer_no_validation
      ⟨true, .ok (), .ok "hi", fun _ => .ok "R"⟩ "hi" rfl rfl rfl).2.1
      (by decide)

/-- C1 counterexample: for the one-character whitespace text `" "`,
`textwrap.wrap` produces no chunks at all, so `chunked_generate` makes
zero model calls while `ceil(1/1500) = 1`. -/
theorem C1_counterexample :
    ¬ ((chunked_generate (fun s => .ok s) " ").1.length =
      (" ".length + 1500 - 1) / 1500) := by decide

/-- C1 (amended): the number of model calls equals the number of chunks
`textwrap.wrap(text, 1500)` produces (which need not be `ceil(L/1500)`),
each call receives its chunk in order, and the output joins the
per-chunk responses with newlines in the original chunk order. -/
theorem C1_calls_eq_chunks (f : String → String) (text : String) :
    (chunked_generate (fun s => .ok (f s)) text).1 = pywrap text 1500 ∧
    (chunked_generate (fun s => .ok (f s)) text).2 =
      .ok (String.intercalate "\n" ((pywrap text 1500).map f)) := by
  simp [chunked_generate, runChunks_ok, Except.map]

/-- C10: an empty or all-whitespace input yields zero chunks, zero
model calls and the empty-string result. -/
theorem C10_whitespace_only (model : String → Except String String)
    (t : String) (h : t.data.all isWs = true) :
    (chunked_generate model t).1 = [] ∧
    (chunked_generate model t).2 = .ok "" := by
  have hall : ∀ c ∈ t.data, isWs c = true := by
    simpa [List.all_eq_true] using h
  have hwrap : pywrap t 1500 = [] := by
    have hm := mungeChars_all_ws t.data hall
    have hchars : wrapChars t.data 1500 = [] := by
      rw [wrapChars_eq_wrapW, splitChunks_eq_splitW]
      cases hmm : mungeChars t.data with
      | nil => rfl
      | cons c rest =>
        have hc' : c = ' ' := hm c (by rw [hmm]; simp)
        have hws : ∀ x ∈ c :: rest, isWs x = true := by
          intro x hx
          have := hm x (by rw [hmm]; exact hx)
          simp [this, isWs]
        have hrun : splitW [] (c :: rest) = [c :: rest] := by
          have := splitW_wsRun [] (c :: rest) [] (by simp) hws (Or.inl rfl)
          simpa using this
        rw [hrun]
        apply wrapW_single_allSpace
        simp only [allSpace, List.all_eq_true]
        intro x hx
        have := hm x (by rw [hmm]; exact hx)
        simp [this, pyIsSpace, isWs]
    simp [pywrap, hchars]
  refine ⟨by simp [chunked_generate, hwrap, runChunks], ?_⟩
  simp only [chunked_generate, hwrap, runChunks, Except.map]
  rfl

/-- C10 witness at the concrete inputs `" "` and `""`. -/
theorem C10_whitespace_only_witness :
    (" ".data.all isWs = true) ∧
    (chunked_generate (fun s => .ok s) " ").1 = [] ∧
    (chunked_generate (fun s => .ok s) " ").2 = .ok "" := by
  refine ⟨by decide, ?_⟩
  exact C10_whitespace_only (fun s => .ok s) " " (by decide)

theorem isWs_pyIsSpace (c : Char) (h : isWs c = true) :
    pyIsSpace c = true := by
  simp [pyIsSpace, h]

/-- Munging is the identity on tab-free text whose only `wordsep`
whitespace is the plain space. -/
theorem mungeChars_id (u : List Char)
    (h1 : ∀ c ∈ u, c ≠ '\t')
    (h2 : ∀ c ∈ u, isWs c = true → c = ' ') :
    mungeChars u = u := by
  simp only [mungeChars]
  rw [expandTabsGo_no_tab u h1 0]
  have hfix : ∀ c ∈ u, replaceWsChar c = id c := by
    intro c hc
    by_cases hw : isWs c = true
    · rw [h2 c hc hw]; decide
    · simp [replaceWsChar, hw]
  rw [List.map_congr_left hfix, List.map_id]

/-- The trailing-whitespace drop does nothing when the joined text ends
in a non-whitespace character. -/
theorem dropTrailing_id_of_last_not_space (cs : List (List Char))
    (hne : ∀ ch ∈ cs, ch ≠ [])
    (h : ∀ c, cs.flatten.getLast? = some c → pyIsSpace c = false) :
    dropTrailingWsChunk cs = cs := by
  simp only [dropTrailingWsChunk]
  cases hlast : cs.getLast? with
  | none => rfl
  | some l =>
    show (if allSpace l = true then cs.dropLast else cs) = cs
    rw [if_neg]
    intro hsp
    obtain ⟨init, rfl⟩ := List.getLast?_eq_some_iff.mp hlast
    have hl : l ≠ [] := hne l (by simp)
    obtain ⟨c, hc⟩ := Option.isSome_iff_exists.mp
      (List.getLast?_isSome.mpr hl)
    have hcl : c ∈ l := List.mem_of_getLast?_eq_some hc
    have hflat : (init ++ [l]).flatten.getLast? = some c := by
      rw [List.flatten_append]
      rw [List.getLast?_append_of_ne_nil init.flatten (by simpa using hl)]
      simpa using hc
    have := h c hflat
    simp only [allSpace, List.all_eq_true] at hsp
    rw [hsp c hcl] at this
    cases this

theorem headI_singleton_data (L : List Char) :
    (([⟨L⟩] : List String).headI).data = L := rfl

theorem chunked_generate_fst (model : String → Except String String)
    (p : String) :
    (chunked_generate model p).1 = (runChunks model (pywrap p 1500)).1 := rfl

/-- With a single chunk, the loop makes exactly that one call whatever
the model returns. -/
theorem runChunks_fst_singleton (model : String → Except String String)
    (c : String) : (runChunks model [c]).1 = [c] := by
  cases hm : model c <;> simp [runChunks, hm]

set_option maxHeartbeats 4000000 in
set_option maxRecDepth 100000 in
/-- C6 counterexample: for the transcript `"a\nb"` the assembled prompt
is 72 characters, one model call is made, but the prompt of that call
does not contain the transcript verbatim: the newline has been replaced
by a space. -/
theorem C6_counterexample :
    (pywrap (summaryPrompt "a\nb") 1500).length = 1 ∧
    ¬ (("a\nb" : String).data <:+:
        ((pywrap (summaryPrompt "a\nb") 1500).headI).data) := by
  constructor
  · decide
  · decide

/-- C6 (amended): for every transcript whose assembled prompt is at
most 1500 characters (and contains no tabs, which `expandtabs` would
lengthen), exactly one model call is made and its prompt starts with
the instruction template; the transcript appears verbatim in the
prompt when its only whitespace is the plain space and it does not end
in whitespace. -/
theorem C6_single_call (model : String → Except String String) (t : String)
    (hlen : (summaryPrompt t).length ≤ 1500)
    (hnotab : ∀ c ∈ t.data, c ≠ '\t') :
    (pywrap (summaryPrompt t) 1500).length = 1 ∧
    (chunked_generate model (summaryPrompt t)).1 =
      pywrap (summaryPrompt t) 1500 ∧
    summaryInstr.data <+: ((pywrap (summaryPrompt t) 1500).headI).data ∧
    ((∀ c ∈ t.data, c = ' ' ∨ pyIsSpace c = false) →
     (∀ cl, t.data.getLast? = some cl → pyIsSpace cl = false) →
     t.data <:+: ((pywrap (summaryPrompt t) 1500).headI).data) := by
  obtain ⟨ctx2, hchunks⟩ := summaryPrompt_chunks t
  have hPnotab : ∀ c ∈ (summaryPrompt t).data, c ≠ '\t' := by
    rw [summaryPrompt_data]
    intro c hc
    rcases List.mem_append.mp hc with hc | hc
    · have : ∀ x ∈ summaryInstr.data, x ≠ '\t' := by decide
      exact this c hc
    · rcases List.mem_cons.mp hc with rfl | hc
      · decide
      · rcases List.mem_cons.mp hc with rfl | hc
        · decide
        · exact hnotab c hc
  have hsum : sumLen (splitChunks (mungeChars (summaryPrompt t).data)) ≤ 1500 := by
    rw [sumLen_splitChunks, mungeChars_length _ hPnotab]
    exact hlen
  have hne : splitChunks (mungeChars (summaryPrompt t).data) ≠ [] := by
    rw [hchunks]; simp [instrTokens]
  have htlne : (' ' :: ' ' :: (mungeChars t.data).takeWhile isWs) ::
      splitW ctx2 ((mungeChars t.data).dropWhile isWs) ≠ [] := by simp
  have hdt : dropTrailingWsChunk (splitChunks (mungeChars (summaryPrompt t).data)) =
      instrTokens ++ dropTrailingWsChunk
        ((' ' :: ' ' :: (mungeChars t.data).takeWhile isWs) ::
          splitW ctx2 ((mungeChars t.data).dropWhile isWs)) := by
    rw [hchunks]
    exact dropTrailing_append _ _ htlne
  have hdtne : dropTrailingWsChunk
      (splitChunks (mungeChars (summaryPrompt t).data)) ≠ [] := by
    rw [hdt]; simp [instrTokens]
  have hwrap : wrapChars (summaryPrompt t).data 1500 =
      [(dropTrailingWsChunk
        (splitChunks (mungeChars (summaryPrompt t).data))).flatten] := by
    rw [wrapChars_eq_wrapW, wrapW_total_fits 1500 _ hne hsum, if_neg]
    simpa using hdtne
  have hpy : pywrap (summaryPrompt t) 1500 =
      [⟨(dropTrailingWsChunk
        (splitChunks (mungeChars (summaryPrompt t).data))).flatten⟩] := by
    simp [pywrap, hwrap]
  refine ⟨by rw [hpy]; rfl, ?_, ?_, ?_⟩
  · rw [chunked_generate_fst, hpy, runChunks_fst_singleton]
  · rw [hpy, headI_singleton_data]
    rw [hdt, List.flatten_append, instrTokens_flatten]
    exact ⟨_, rfl⟩
  · intro hclean hlast
    have hMid : mungeChars t.data = t.data := by
      apply mungeChars_id _ hnotab
      intro c hc hw
      rcases hclean c hc with h | h
      · exact h
      · rw [isWs_pyIsSpace c hw] at h; cases h
    have hflat : (splitChunks (mungeChars (summaryPrompt t).data)).flatten =
        summaryInstr.data ++ ' ' :: ' ' :: t.data := by
      rw [splitChunks_eq_splitW, splitW_flatten, summaryPrompt_data,
        munge_summaryPromptChars, hMid]
    by_cases htd : t.data = []
    · rw [htd]
      exact List.nil_infix
    · have hlastflat : ∀ c,
          (splitChunks (mungeChars (summaryPrompt t).data)).flatten.getLast? =
            some c → pyIsSpace c = false := by
        intro c hc
        rw [hflat] at hc
        rw [show summaryInstr.data ++ ' ' :: ' ' :: t.data =
          (summaryInstr.data ++ [' ', ' ']) ++ t.data from by simp] at hc
        rw [List.getLast?_append_of_ne_nil _ htd] at hc
        exact hlast c hc
      have hcsne : ∀ ch ∈ splitChunks (mungeChars (summaryPrompt t).data),
          ch ≠ [] := by
        rw [splitChunks_eq_splitW]
        exact splitW_ne_nil _ _
      have hid := dropTrailing_id_of_last_not_space _ hcsne hlastflat
      rw [hpy, headI_singleton_data]
      rw [hid, hflat]
      refine List.IsSuffix.isInfix ⟨summaryInstr.data ++ [' ', ' '], by simp⟩

set_option maxHeartbeats 4000000 in
set_option maxRecDepth 100000 in
/-- C6 witness: a clean 12-character transcript. -/
theorem C6_single_call_witness :
    ((summaryPrompt "test lecture").length ≤ 1500) ∧
    (pywrap (summaryPrompt "test lecture") 1500).length = 1 ∧
    ("test lecture" : String).data <:+:
      ((pywrap (summaryPrompt "test lecture") 1500).headI).data := by
  have h := C6_single_call (fun s => .ok s) "test lecture" (by decide)
    (by decide)
  exact ⟨by decide, h.1, h.2.2.2 (by decide) (by decide)⟩

/-! ### Support lemmas for multi-chunk prompts (claim C2)

When the transcript pushes the prompt past 1500 characters, the greedy
fill emits the instruction tokens on the first line only — unless the
transcript itself contains the instruction text. -/

theorem lastHyIdx_none (l : List Char) (h : ∀ c ∈ l, c ≠ '-') :
    lastHyIdx l = none := by
  induction l with
  | nil => rfl
  | cons c cs ih =>
    simp only [lastHyIdx, ih (fun x hx => h x (List.mem_cons_of_mem _ hx))]
    rw [if_neg (h c (List.mem_cons_self _ _))]

/-- With no hyphen in sight, `_handle_long_word` cuts at exactly
`width - cur_len`. -/
theorem handleLongWord_no_hyphen (w cur : Nat) (chunk : List Char)
    (hw : 1 ≤ w) (hlt : w - cur < chunk.length)
    (hnh : ∀ c ∈ chunk, c ≠ '-') :
    handleLongWord w cur chunk =
      (chunk.take (w - cur), chunk.drop (w - cur)) := by
  have hnlt : ¬ w < 1 := by omega
  simp only [handleLongWord, if_neg hnlt, if_pos hlt,
    lastHyIdx_none (chunk.take (w - cur))
      (fun c hc => hnh c (List.mem_of_mem_take hc))]

theorem takeWhile_isWs_x (l : List Char) :
    ('x' :: l).takeWhile isWs = [] := by
  simp [List.takeWhile_cons, show isWs 'x' = false from by decide]

theorem dropWhile_isWs_x (l : List Char) :
    ('x' :: l).dropWhile isWs = 'x' :: l := by
  simp [List.dropWhile_cons, show isWs 'x' = false from by decide]

theorem replicate_x_succ (n : Nat) (h : 0 < n) :
    List.replicate n 'x' = 'x' :: List.replicate (n - 1) 'x' := by
  match n, h with
  | n + 1, _ => simp [List.replicate_succ]

theorem allSpace_replicate_x (n : Nat) (h : 0 < n) :
    allSpace (List.replicate n 'x') = false := by
  rw [replicate_x_succ n h]
  simp [allSpace, show pyIsSpace 'x' = false from by decide]

theorem replicate_x_ne_nil (n : Nat) (h : 0 < n) :
    List.replicate n 'x' ≠ [] := by
  rw [replicate_x_succ n h]
  exact List.cons_ne_nil _ _

theorem mungeChars_replicate_x (n : Nat) :
    mungeChars (List.replicate n 'x') = List.replicate n 'x' := by
  apply mungeChars_id
  · intro c hc; rw [List.eq_of_mem_replicate hc]; decide
  · intro c hc hw
    rw [List.eq_of_mem_replicate hc] at hw
    exact absurd hw (by decide)

/-- The instruction text cannot hide inside a run of `x`s. -/
theorem not_instr_in_replicate_x (n : Nat) :
    ¬ summaryInstr.data <:+: List.replicate n 'x' := by
  intro h
  have hmem : 'S' ∈ List.replicate n 'x' :=
    h.subset (show 'S' ∈ summaryInstr.data from by decide)
  exact absurd (List.eq_of_mem_replicate hmem) (by decide)

theorem dropTrailing_singleton (l : List Char) (h : allSpace l = false) :
    dropTrailingWsChunk [l] = [l] := by
  simp [dropTrailingWsChunk, h]

theorem dropTrailing_concat_ws (x : List (List Char)) (l : List Char)
    (h : allSpace l = true) :
    dropTrailingWsChunk (x ++ [l]) = x := by
  simp only [dropTrailingWsChunk, List.getLast?_concat, h, if_true,
    List.dropLast_concat]

/-- One step of the outer loop before any line has been emitted. -/
theorem wrapStep_true_eq (w : Nat) (cs : List (List Char)) :
    wrapStep w true cs =
      (if (dropTrailingWsChunk (fillLine w cs).1).isEmpty then none
       else some (dropTrailingWsChunk (fillLine w cs).1).flatten,
       (fillLine w cs).2) := by
  cases cs with
  | nil => rfl
  | cons c cs2 =>
    simp only [wrapStep, Bool.not_true, Bool.false_and, Bool.false_eq_true,
      if_false]

/-- One step with lines already emitted and a non-whitespace head chunk:
no leading drop happens. -/
theorem wrapStep_false_keep (w : Nat) (c : List Char) (cs : List (List Char))
    (h : allSpace c = false) :
    wrapStep w false (c :: cs) =
      (if (dropTrailingWsChunk (fillLine w (c :: cs)).1).isEmpty then none
       else some (dropTrailingWsChunk (fillLine w (c :: cs)).1).flatten,
       (fillLine w (c :: cs)).2) := by
  simp only [wrapStep, Bool.not_false, Bool.true_and, h, Bool.false_eq_true,
    if_false]

/-- One step with lines already emitted and a whitespace head chunk:
the head is dropped first. -/
theorem wrapStep_false_drop (w : Nat) (c : List Char) (cs : List (List Char))
    (h : allSpace c = true) :
    wrapStep w false (c :: cs) =
      (if (dropTrailingWsChunk (fillLine w cs).1).isEmpty then none
       else some (dropTrailingWsChunk (fillLine w cs).1).flatten,
       (fillLine w cs).2) := by
  simp only [wrapStep, Bool.not_false, Bool.true_and, h, if_true]

theorem wrapW_cons_of_step (w : Nat) (b : Bool) (cs : List (List Char))
    (h : cs ≠ []) (line : List Char) (rest : List (List Char))
    (hstep : wrapStep w b cs = (some line, rest)) :
    wrapW w b cs = line :: wrapW w false rest := by
  rw [wrapW_step w b cs h, hstep]

theorem sumLen_instr_ws : sumLen (instrTokens ++ [[' ', ' ']]) = 69 := by
  rw [sumLen_append, instrTokens_sumLen]
  rfl

/-- Splitting the bare instruction text (at the end of the input) gives
exactly the instruction tokens, whatever the left context. -/
theorem splitW_instr_end (ctx : List Char) :
    splitW ctx summaryInstr.data = instrTokens := by
  rw [show summaryInstr.data = "Summarize".data ++ (' ' :: ("the".data ++ (' ' :: ("following".data ++ (' ' :: ("lecture".data ++ (' ' :: ("in".data ++ (' ' :: ("clear,".data ++ (' ' :: ("structured".data ++ (' ' :: ("bullet".data ++ (' ' :: ("points:".data ++ ([] : List Char))))))))))))))))) from by decide]
  rw [splitW_plainWord ctx "Summarize".data _ (by decide) (by decide)
    (Or.inr ⟨' ', _, rfl, by decide⟩)]
  rw [splitW_space_word _ "the".data _ (by decide) (by decide)
    (Or.inr ⟨' ', _, rfl, by decide⟩)]
  rw [splitW_space_word _ "following".data _ (by decide) (by decide)
    (Or.inr ⟨' ', _, rfl, by decide⟩)]
  rw [splitW_space_word _ "lecture".data _ (by decide) (by decide)
    (Or.inr ⟨' ', _, rfl, by decide⟩)]
  rw [splitW_space_word _ "in".data _ (by decide) (by decide)
    (Or.inr ⟨' ', _, rfl, by decide⟩)]
  rw [splitW_space_word _ "clear,".data _ (by decide) (by decide)
    (Or.inr ⟨' ', _, rfl, by decide⟩)]
  rw [splitW_space_word _ "structured".data _ (by decide) (by decide)
    (Or.inr ⟨' ', _, rfl, by decide⟩)]
  rw [splitW_space_word _ "bullet".data _ (by decide) (by decide)
    (Or.inr ⟨' ', _, rfl, by decide⟩)]
  rw [splitW_space_word _ "points:".data [] (by decide) (by decide)
    (Or.inl rfl)]
  rw [splitW_nil]
  rfl

/-- An occurrence inside `c :: M` that does not start with `c` is an
occurrence inside `M`. -/
theorem inside_cons_drop_head {a : List Char} {c : Char} {M : List Char}
    (h : a <:+: c :: M) (hhd : a.head? ≠ some c) : a <:+: M := by
  obtain ⟨s, t2, hst⟩ := h
  match s with
  | [] =>
    match a with
    | [] => exact List.nil_infix
    | a0 :: a2 =>
      exfalso
      apply hhd
      simp only [List.nil_append, List.cons_append, List.cons.injEq] at hst
      rw [List.head?_cons, hst.1]
  | s0 :: s2 =>
    simp only [List.cons_append, List.append_assoc, List.cons.injEq] at hst
    exact ⟨s2, t2, by rw [List.append_assoc]; exact hst.2⟩

theorem headI_cons_data (L : List Char) (r : List String) :
    ((⟨L⟩ :: r : List String).headI).data = L := rfl

/-! ### The wrapped prompt for a 2000-character transcript -/

theorem wrapChars_x2000 :
    wrapChars (summaryPrompt ⟨List.replicate 2000 'x'⟩).data 1500 =
      [summaryInstr.data ++ ' ' :: ' ' :: List.replicate 1431 'x',
       List.replicate 569 'x'] := by
  obtain ⟨ctx2, hchunks⟩ := summaryPrompt_chunks ⟨List.replicate 2000 'x'⟩
  rw [show (⟨List.replicate 2000 'x'⟩ : String).data = List.replicate 2000 'x'
    from rfl, mungeChars_replicate_x] at hchunks
  rw [replicate_x_succ 2000 (by omega)] at hchunks
  rw [takeWhile_isWs_x, dropWhile_isWs_x] at hchunks
  rw [← replicate_x_succ 2000 (by omega)] at hchunks
  have hsplit : splitW ctx2 (List.replicate 2000 'x') =
      [List.replicate 2000 'x'] := by
    have h := splitW_plainWord ctx2 (List.replicate 2000 'x') []
      (replicate_x_ne_nil 2000 (by omega))
      (fun c hc => by
        rw [List.eq_of_mem_replicate hc]
        exact ⟨by decide, by decide⟩)
      (Or.inl rfl)
    rw [List.append_nil] at h
    rw [h, splitW_nil]
  rw [hsplit] at hchunks
  rw [wrapChars_eq_wrapW, hchunks]
  have htf1 : takeFits 1500 0
      (instrTokens ++ ([' ', ' '] :: [List.replicate 2000 'x'])) =
      (instrTokens ++ [[' ', ' ']], [List.replicate 2000 'x']) := by
    rw [show instrTokens ++ ([' ', ' '] :: [List.replicate 2000 'x']) =
      (instrTokens ++ [[' ', ' ']]) ++ [List.replicate 2000 'x'] from by
        rw [List.append_assoc]; rfl]
    rw [takeFits_append 1500 0 _ _ (by rw [sumLen_instr_ws]; omega)]
    rw [sumLen_instr_ws]
    simp only [takeFits, List.length_replicate]
    rw [if_neg (by omega)]
    simp only [List.append_nil]
  have hfl1 : fillLine 1500
      (instrTokens ++ ([' ', ' '] :: [List.replicate 2000 'x'])) =
      ((instrTokens ++ [[' ', ' ']]) ++ [List.replicate 1431 'x'],
       [List.replicate 569 'x']) := by
    simp only [fillLine, htf1, List.length_replicate]
    rw [if_pos (by omega : (1500 : Nat) < 2000)]
    rw [sumLen_instr_ws]
    rw [handleLongWord_no_hyphen 1500 69 (List.replicate 2000 'x')
      (by omega) (by rw [List.length_replicate]; omega)
      (fun c hc => by rw [List.eq_of_mem_replicate hc]; decide)]
    rw [show (1500 : Nat) - 69 = 1431 from by norm_num]
    rw [List.take_replicate, List.drop_replicate]
    rw [Nat.min_eq_left (by omega : (1431 : Nat) ≤ 2000)]
  have hstep1 : wrapStep 1500 true
      (instrTokens ++ ([' ', ' '] :: [List.replicate 2000 'x'])) =
      (some (summaryInstr.data ++ ' ' :: ' ' :: List.replicate 1431 'x'),
       [List.replicate 569 'x']) := by
    rw [wrapStep_true_eq, hfl1]
    rw [dropTrailing_append _ [List.replicate 1431 'x'] (List.cons_ne_nil _ _),
      dropTrailing_singleton _ (allSpace_replicate_x 1431 (by omega))]
    rw [if_neg (by decide)]
    simp only [List.flatten_append, instrTokens_flatten, List.flatten_cons,
      List.flatten_nil, List.append_nil, List.cons_append, List.nil_append,
      List.append_assoc]
  have hstep2 : wrapStep 1500 false [List.replicate 569 'x'] =
      (some (List.replicate 569 'x'), []) := by
    rw [wrapStep_false_keep _ _ _ (allSpace_replicate_x 569 (by omega))]
    have htf2 : takeFits 1500 0 [List.replicate 569 'x'] =
        ([List.replicate 569 'x'], []) :=
      takeFits_all 1500 0 _
        (by rw [sumLen_cons, sumLen_nil, List.length_replicate]; omega)
    have hfl2 : fillLine 1500 [List.replicate 569 'x'] =
        ([List.replicate 569 'x'], []) := by
      simp only [fillLine, htf2]
    rw [hfl2]
    rw [dropTrailing_singleton _ (allSpace_replicate_x 569 (by omega))]
    rw [if_neg (by decide)]
    simp only [List.flatten_cons, List.flatten_nil, List.append_nil]
  rw [wrapW_cons_of_step 1500 true _ (by decide) _ _ hstep1]
  rw [wrapW_cons_of_step 1500 false _ (List.cons_ne_nil _ _) _ _ hstep2]
  rw [wrapW_nil]

theorem pywrap_x2000 :
    pywrap (summaryPrompt ⟨List.replicate 2000 'x'⟩) 1500 =
      [⟨summaryInstr.data ++ ' ' :: ' ' :: List.replicate 1431 'x'⟩,
       ⟨List.replicate 569 'x'⟩] := by
  simp only [pywrap, wrapChars_x2000, List.map_cons, List.map_nil]

/-! ### The wrapped prompt when the transcript repeats the instruction -/

set_option maxRecDepth 8000 in
theorem wrapChars_instr_in_transcript :
    wrapChars (summaryPrompt
      ⟨List.replicate 1500 'x' ++ ' ' :: summaryInstr.data⟩).data 1500 =
      [summaryInstr.data, List.replicate 1500 'x', summaryInstr.data] := by
  obtain ⟨ctx2, hchunks⟩ := summaryPrompt_chunks
    ⟨List.replicate 1500 'x' ++ ' ' :: summaryInstr.data⟩
  rw [show (⟨List.replicate 1500 'x' ++ ' ' :: summaryInstr.data⟩ :
    String).data = List.replicate 1500 'x' ++ ' ' :: summaryInstr.data
    from rfl] at hchunks
  have hinstr_tab : ∀ c ∈ summaryInstr.data, c ≠ '\t' := by decide
  have hinstr_ws : ∀ c ∈ summaryInstr.data, isWs c = true → c = ' ' := by
    decide
  have hMid : mungeChars (List.replicate 1500 'x' ++ ' ' :: summaryInstr.data) =
      List.replicate 1500 'x' ++ ' ' :: summaryInstr.data := by
    apply mungeChars_id
    · intro c hc
      rcases List.mem_append.mp hc with hc | hc
      · rw [List.eq_of_mem_replicate hc]; decide
      · rcases List.mem_cons.mp hc with rfl | hc
        · decide
        · exact hinstr_tab c hc
    · intro c hc hw
      rcases List.mem_append.mp hc with hc | hc
      · rw [List.eq_of_mem_replicate hc] at hw; exact absurd hw (by decide)
      · rcases List.mem_cons.mp hc with rfl | hc
        · rfl
        · exact hinstr_ws c hc hw
  rw [hMid] at hchunks
  rw [replicate_x_succ 1500 (by omega), List.cons_append] at hchunks
  rw [takeWhile_isWs_x, dropWhile_isWs_x] at hchunks
  rw [← List.cons_append, ← replicate_x_succ 1500 (by omega)] at hchunks
  have hsplit : splitW ctx2
      (List.replicate 1500 'x' ++ ' ' :: summaryInstr.data) =
      List.replicate 1500 'x' :: [' '] :: instrTokens := by
    rw [splitW_plainWord ctx2 (List.replicate 1500 'x')
      (' ' :: summaryInstr.data) (replicate_x_ne_nil 1500 (by omega))
      (fun c hc => by
        rw [List.eq_of_mem_replicate hc]
        exact ⟨by decide, by decide⟩)
      (Or.inr ⟨' ', summaryInstr.data, rfl, by decide⟩)]
    rw [splitW_ws_cons _ ' ' summaryInstr.data (by decide)]
    rw [show summaryInstr.data.takeWhile isWs = [] from by decide]
    rw [show summaryInstr.data.dropWhile isWs = summaryInstr.data
      from by decide]
    rw [splitW_instr_end]
  rw [hsplit] at hchunks
  rw [wrapChars_eq_wrapW, hchunks]
  have htf1 : takeFits 1500 0 (instrTokens ++
      ([' ', ' '] :: List.replicate 1500 'x' :: [' '] :: instrTokens)) =
      (instrTokens ++ [[' ', ' ']],
       List.replicate 1500 'x' :: [' '] :: instrTokens) := by
    rw [show instrTokens ++
      ([' ', ' '] :: List.replicate 1500 'x' :: [' '] :: instrTokens) =
      (instrTokens ++ [[' ', ' ']]) ++
        (List.replicate 1500 'x' :: [' '] :: instrTokens) from by
        rw [List.append_assoc]; rfl]
    rw [takeFits_append 1500 0 _ _ (by rw [sumLen_instr_ws]; omega)]
    rw [sumLen_instr_ws]
    simp only [takeFits, List.length_replicate]
    rw [if_neg (by omega)]
    simp only [List.append_nil]
  have hfl1 : fillLine 1500 (instrTokens ++
      ([' ', ' '] :: List.replicate 1500 'x' :: [' '] :: instrTokens)) =
      (instrTokens ++ [[' ', ' ']],
       List.replicate 1500 'x' :: [' '] :: instrTokens) := by
    simp only [fillLine, htf1, List.length_replicate]
    rw [if_neg (by omega : ¬ (1500 : Nat) < 1500)]
  have hstep1 : wrapStep 1500 true (instrTokens ++
      ([' ', ' '] :: List.replicate 1500 'x' :: [' '] :: instrTokens)) =
      (some summaryInstr.data,
       List.replicate 1500 'x' :: [' '] :: instrTokens) := by
    rw [wrapStep_true_eq, hfl1]
    rw [dropTrailing_concat_ws instrTokens [' ', ' '] (by decide)]
    rw [if_neg (by simp [instrTokens])]
    rw [instrTokens_flatten]
  have htf2 : takeFits 1500 0
      (List.replicate 1500 'x' :: [' '] :: instrTokens) =
      ([List.replicate 1500 'x'], [' '] :: instrTokens) := by
    rw [show List.replicate 1500 'x' :: [' '] :: instrTokens =
      [List.replicate 1500 'x'] ++ ([' '] :: instrTokens) from rfl]
    rw [takeFits_append 1500 0 _ _
      (by rw [sumLen_cons, sumLen_nil, List.length_replicate])]
    rw [sumLen_cons, sumLen_nil, List.length_replicate]
    simp only [takeFits, List.length_cons, List.length_nil]
    rw [if_neg (by omega)]
    simp only [List.append_nil]
  have hfl2 : fillLine 1500
      (List.replicate 1500 'x' :: [' '] :: instrTokens) =
      ([List.replicate 1500 'x'], [' '] :: instrTokens) := by
    have hc : ¬ (1500 : Nat) < ([' '] : List Char).length := by decide
    simp only [fillLine, htf2]
    rw [if_neg hc]
  have hstep2 : wrapStep 1500 false
      (List.replicate 1500 'x' :: [' '] :: instrTokens) =
      (some (List.replicate 1500 'x'), [' '] :: instrTokens) := by
    rw [wrapStep_false_keep _ _ _ (allSpace_replicate_x 1500 (by omega))]
    rw [hfl2]
    rw [dropTrailing_singleton _ (allSpace_replicate_x 1500 (by omega))]
    rw [if_neg (by decide)]
    simp only [List.flatten_cons, List.flatten_nil, List.append_nil]
  have hstep3 : wrapStep 1500 false ([' '] :: instrTokens) =
      (some summaryInstr.data, []) := by
    rw [wrapStep_false_drop _ _ _ (by decide)]
    have htf3 : takeFits 1500 0 instrTokens = (instrTokens, []) :=
      takeFits_all 1500 0 _ (by rw [instrTokens_sumLen]; omega)
    have hfl3 : fillLine 1500 instrTokens = (instrTokens, []) := by
      simp only [fillLine, htf3]
    rw [hfl3, dropTrailing_instrTokens]
    rw [if_neg (by simp [instrTokens])]
    rw [instrTokens_flatten]
  rw [wrapW_cons_of_step 1500 true _ (by decide) _ _ hstep1]
  rw [wrapW_cons_of_step 1500 false _ (List.cons_ne_nil _ _) _ _ hstep2]
  rw [wrapW_cons_of_step 1500 false _ (List.cons_ne_nil _ _) _ _ hstep3]
  rw [wrapW_nil]

theorem pywrap_instr_in_transcript :
    pywrap (summaryPrompt
      ⟨List.replicate 1500 'x' ++ ' ' :: summaryInstr.data⟩) 1500 =
      [summaryInstr, ⟨List.replicate 1500 'x'⟩, summaryInstr] := by
  simp only [pywrap, wrapChars_instr_in_transcript, List.map_cons,
    List.map_nil]

/-- C2 counterexample: a transcript that itself repeats the instruction
text puts the instruction into the third chunk, so the instruction is
not absent from every chunk after the first. -/
theorem C2_counterexample :
    pywrap (summaryPrompt
      ⟨List.replicate 1500 'x' ++ ' ' :: summaryInstr.data⟩) 1500 =
      [summaryInstr, ⟨List.replicate 1500 'x'⟩, summaryInstr] ∧
    ∃ ch ∈ (pywrap (summaryPrompt
      ⟨List.replicate 1500 'x' ++ ' ' :: summaryInstr.data⟩) 1500).tail,
      summaryInstr.data <:+: ch.data := by
  refine ⟨pywrap_instr_in_transcript, summaryInstr, ?_, List.infix_refl _⟩
  rw [pywrap_instr_in_transcript]
  simp only [List.tail_cons]
  exact List.mem_cons_of_mem _ (List.mem_cons_self _ _)

/-! ### The questions instruction prompt (`generate_questions`, lines 37-42)

`generate_questions` prepends its own fixed instruction; `wordsep_re`
cuts it into fifteen words separated by single spaces, and the `"\n\n"`
separator munges to two spaces exactly as for the summary prompt. -/

/-- The tokens `wordsep_re` produces for the questions instruction. -/
def qInstrTokens : List (List Char) :=
  ["Generate".data, [' '], "5".data, [' '], "practice".data, [' '], "questions".data, [' '], "and".data, [' '], "5".data, [' '], "quick".data, [' '], "study".data, [' '], "tips".data, [' '], "for".data, [' '], "revision".data, [' '], "based".data, [' '], "on".data, [' '], "this".data, [' '], "lecture:".data]

theorem qInstrTokens_flatten : qInstrTokens.flatten = questionsInstr.data := by
  decide

theorem qInstrTokens_sumLen : sumLen qInstrTokens = 88 := by decide

theorem dropTrailing_qInstrTokens :
    dropTrailingWsChunk qInstrTokens = qInstrTokens := by decide

/-- Splitting the munged questions prompt: the fifteen instruction
tokens and fourteen separating spaces come first, then the
`"\n\n"`-derived double space merged with the transcript's leading
whitespace, then the split of the rest of the transcript. -/
theorem splitW_qInstr (ctx m : List Char) :
    ∃ ctx2, splitW ctx (questionsInstr.data ++ ' ' :: ' ' :: m) =
      qInstrTokens ++ ((' ' :: ' ' :: m.takeWhile isWs) ::
        splitW ctx2 (m.dropWhile isWs)) := by
  have h0 : questionsInstr.data ++ ' ' :: ' ' :: m = "Generate".data ++ (' ' :: ("5".data ++ (' ' :: ("practice".data ++ (' ' :: ("questions".data ++ (' ' :: ("and".data ++ (' ' :: ("5".data ++ (' ' :: ("quick".data ++ (' ' :: ("study".data ++ (' ' :: ("tips".data ++ (' ' :: ("for".data ++ (' ' :: ("revision".data ++ (' ' :: ("based".data ++ (' ' :: ("on".data ++ (' ' :: ("this".data ++ (' ' :: ("lecture:".data ++ (' ' :: ' ' :: m))))))))))))))))))))))))))))) := by
    rw [show questionsInstr.data = "Generate".data ++ (' ' :: ("5".data ++ (' ' :: ("practice".data ++ (' ' :: ("questions".data ++ (' ' :: ("and".data ++ (' ' :: ("5".data ++ (' ' :: ("quick".data ++ (' ' :: ("study".data ++ (' ' :: ("tips".data ++ (' ' :: ("for".data ++ (' ' :: ("revision".data ++ (' ' :: ("based".data ++ (' ' :: ("on".data ++ (' ' :: ("this".data ++ (' ' :: ("lecture:".data)))))))))))))))))))))))))))) from by decide]
    simp only [List.append_assoc, List.cons_append]
  rw [h0]
  rw [splitW_plainWord ctx "Generate".data _ (by decide) (by decide)
    (Or.inr ⟨' ', _, rfl, by decide⟩)]
  rw [splitW_space_word _ "5".data _ (by decide) (by decide)
    (Or.inr ⟨' ', _, rfl, by decide⟩)]
  rw [splitW_space_word _ "practice".data _ (by decide) (by decide)
    (Or.inr ⟨' ', _, rfl, by decide⟩)]
  rw [splitW_space_word _ "questions".data _ (by decide) (by decide)
    (Or.inr ⟨' ', _, rfl, by decide⟩)]
  rw [splitW_space_word _ "and".data _ (by decide) (by decide)
    (Or.inr ⟨' ', _, rfl, by decide⟩)]
  rw [splitW_space_word _ "5".data _ (by decide) (by decide)
    (Or.inr ⟨' ', _, rfl, by decide⟩)]
  rw [splitW_space_word _ "quick".data _ (by decide) (by decide)
    (Or.inr ⟨' ', _, rfl, by decide⟩)]
  rw [splitW_space_word _ "study".data _ (by decide) (by decide)
    (Or.inr ⟨' ', _, rfl, by decide⟩)]
  rw [splitW_space_word _ "tips".data _ (by decide) (by decide)
    (Or.inr ⟨' ', _, rfl, by decide⟩)]
  rw [splitW_space_word _ "for".data _ (by decide) (by decide)
    (Or.inr ⟨' ', _, rfl, by decide⟩)]
  rw [splitW_space_word _ "revision".data _ (by decide) (by decide)
    (Or.inr ⟨' ', _, rfl, by decide⟩)]
  rw [splitW_space_word _ "based".data _ (by decide) (by decide)
    (Or.inr ⟨' ', _, rfl, by decide⟩)]
  rw [splitW_space_word _ "on".data _ (by decide) (by decide)
    (Or.inr ⟨' ', _, rfl, by decide⟩)]
  rw [splitW_space_word _ "this".data _ (by decide) (by decide)
    (Or.inr ⟨' ', _, rfl, by decide⟩)]
  rw [splitW_space_word _ "lecture:".data (' ' :: ' ' :: m) (by decide)
    (by decide) (Or.inr ⟨' ', ' ' :: m, rfl, by decide⟩)]
  rw [splitW_ws_cons _ ' ' (' ' :: m) (by decide)]
  simp only [List.takeWhile_cons, List.dropWhile_cons,
    show isWs ' ' = true from by decide, if_true]
  exact ⟨_, rfl⟩

/-- Munging the questions prompt: the instruction passes through
unchanged and the `"\n\n"` becomes two spaces. -/
theorem munge_questionsPromptChars (u : List Char) :
    mungeChars (questionsInstr.data ++ '\n' :: '\n' :: u) =
      questionsInstr.data ++ ' ' :: ' ' :: mungeChars u := by
  simp only [mungeChars]
  rw [expandTabsGo_clean_append questionsInstr.data ('\n' :: '\n' :: u)
    (by decide) 0]
  have h1 : expandTabsGo (0 + questionsInstr.data.length) ('\n' :: '\n' :: u) =
      '\n' :: '\n' :: expandTabsGo 0 u := by
    simp [expandTabsGo]
  rw [h1]
  simp only [List.map_append, List.map_cons]
  rw [show List.map replaceWsChar questionsInstr.data = questionsInstr.data
    from by decide]
  rw [show replaceWsChar '\n' = ' ' from by decide]

theorem questionsPrompt_data (t : String) :
    (questionsPrompt t).data =
      questionsInstr.data ++ '\n' :: '\n' :: t.data := by
  show (questionsInstr ++ "\n\n" ++ t).data = _
  rw [String.data_append, String.data_append]
  rw [show ("\n\n" : String).data = ['\n', '\n'] from by decide]
  simp

/-- The chunk list of the munged questions prompt. -/
theorem questionsPrompt_chunks (t : String) :
    ∃ ctx2, splitChunks (mungeChars (questionsPrompt t).data) =
      qInstrTokens ++ ((' ' :: ' ' :: (mungeChars t.data).takeWhile isWs) ::
        splitW ctx2 ((mungeChars t.data).dropWhile isWs)) := by
  rw [questionsPrompt_data, munge_questionsPromptChars, splitChunks_eq_splitW]
  exact splitW_qInstr [] (mungeChars t.data)

/-- Wrapping a chunk list that starts with any instruction token block
that fits the width and does not end in whitespace: the first line
exists and starts with the block's text, and every later line is drawn
from the remaining chunks only. -/
theorem wrapW_tokens_structure (ts r : List (List Char))
    (htne : ts ≠ []) (hsum : sumLen ts ≤ 1500)
    (hdtts : dropTrailingWsChunk ts = ts) :
    ∃ line rest, wrapW 1500 true (ts ++ r) = line :: rest ∧
      ts.flatten <+: line ∧
      ∀ l ∈ rest, l <:+: r.flatten := by
  obtain ⟨tail, htail⟩ := fillLine_tokens_prefix 1500 ts r hsum
  have hne : ts ++ r ≠ [] := by
    intro hc
    rcases List.append_eq_nil.mp hc with ⟨h1, h2⟩
    exact htne h1
  have hq1 : (wrapStep 1500 true (ts ++ r)).1 =
      some (dropTrailingWsChunk ((fillLine 1500 (ts ++ r)).1)).flatten ∧
      (wrapStep 1500 true (ts ++ r)).2 =
      (fillLine 1500 (ts ++ r)).2 := by
    have hshape : ∃ c cs', ts ++ r = c :: cs' := by
      match ts, htne with
      | c :: ts2, _ => exact ⟨c, ts2 ++ r, by simp⟩
    obtain ⟨c, cs', hcs⟩ := hshape
    rw [hcs]
    simp only [wrapStep, Bool.not_true, Bool.false_and, Bool.false_eq_true,
      if_false]
    rw [← hcs, htail]
    constructor
    · rw [if_neg]
      intro hempty
      cases htail2 : dropTrailingWsChunk (ts ++ tail) with
      | nil =>
        rcases List.eq_nil_or_concat tail with rfl | ⟨t0, x, hcat⟩
        · rw [List.append_nil, hdtts] at htail2
          exact htne htail2
        · rw [List.concat_eq_append] at hcat
          subst hcat
          rw [dropTrailing_append ts (t0 ++ [x]) (by simp)] at htail2
          rcases List.append_eq_nil.mp htail2 with ⟨h1, h2⟩
          exact htne h1
      | cons d ds => rw [htail2] at hempty; simp at hempty
    · trivial
  have hprefix : ts.flatten <+:
      (dropTrailingWsChunk ((fillLine 1500 (ts ++ r)).1)).flatten := by
    rw [htail]
    rcases List.eq_nil_or_concat tail with rfl | ⟨t0, x, hcat⟩
    · rw [List.append_nil, hdtts]
    · rw [List.concat_eq_append] at hcat
      subst hcat
      rw [dropTrailing_append ts (t0 ++ [x]) (by simp)]
      rw [List.flatten_append]
      exact ⟨_, rfl⟩
  have hsuffix : (fillLine 1500 (ts ++ r)).2.flatten <:+ r.flatten := by
    have hpart := fillLine_partition 1500 (ts ++ r)
    rw [htail] at hpart
    rw [List.flatten_append, List.flatten_append,
      List.append_assoc] at hpart
    have h2 := List.append_cancel_left hpart
    exact ⟨tail.flatten, h2⟩
  refine ⟨(dropTrailingWsChunk ((fillLine 1500 (ts ++ r)).1)).flatten,
    wrapW 1500 false (fillLine 1500 (ts ++ r)).2, ?_, hprefix, ?_⟩
  · rw [wrapW_step 1500 true (ts ++ r) hne]
    rw [hq1.1, hq1.2]
  · intro l hl
    exact ( wrapW_lines_infix 1500 false _ l hl).trans hsuffix.isInfix

/-- An instruction prompt whose chunk list starts with the instruction
tokens: the first wrapped chunk starts with the instruction text, and
when the instruction does not occur in the normalized transcript it is
absent from every later chunk. -/
theorem pywrap_prompt_instr_head_tail (P t : String)
    (iTs : List (List Char)) (ins : List Char) (ctx2 : List Char)
    (hchunks : splitChunks (mungeChars P.data) =
      iTs ++ ((' ' :: ' ' :: (mungeChars t.data).takeWhile isWs) ::
        splitW ctx2 ((mungeChars t.data).dropWhile isWs)))
    (hflat : iTs.flatten = ins)
    (htne : iTs ≠ []) (hsum : sumLen iTs ≤ 1500)
    (hdtts : dropTrailingWsChunk iTs = iTs)
    (hhd : ins.head? ≠ some ' ')
    (hno : ¬ ins <:+: mungeChars t.data) :
    ins <+: ((pywrap P 1500).headI).data ∧
    ∀ ch ∈ (pywrap P 1500).tail, ¬ ins <:+: ch.data := by
  obtain ⟨line, rest, hw, hpre, hinfr⟩ := wrapW_tokens_structure iTs
    ((' ' :: ' ' :: (mungeChars t.data).takeWhile isWs) ::
      splitW ctx2 ((mungeChars t.data).dropWhile isWs)) htne hsum hdtts
  rw [hflat] at hpre
  have hpy : pywrap P 1500 =
      (⟨line⟩ : String) :: rest.map (fun l => (⟨l⟩ : String)) := by
    simp only [pywrap]
    rw [wrapChars_eq_wrapW, hchunks, hw]
    rfl
  constructor
  · rw [hpy, headI_cons_data]
    exact hpre
  · have hR : ((' ' :: ' ' :: (mungeChars t.data).takeWhile isWs) ::
        splitW ctx2 ((mungeChars t.data).dropWhile isWs)).flatten =
        ' ' :: ' ' :: mungeChars t.data := by
      simp only [List.flatten_cons, splitW_flatten, List.cons_append]
      rw [List.takeWhile_append_dropWhile]
    rw [hpy]
    simp only [List.tail_cons]
    intro ch hch hcontra
    rcases List.mem_map.mp hch with ⟨l, hl, rfl⟩
    have h1 : ins <:+: l := hcontra
    have h2 := h1.trans (hinfr l hl)
    rw [hR] at h2
    exact hno (inside_cons_drop_head (inside_cons_drop_head h2 hhd) hhd)

/-- The questions instruction text cannot hide inside a run of `x`s. -/
theorem not_qinstr_in_replicate_x (n : Nat) :
    ¬ questionsInstr.data <:+: List.replicate n 'x' := by
  intro h
  have hmem : 'G' ∈ List.replicate n 'x' :=
    h.subset (show 'G' ∈ questionsInstr.data from by decide)
  exact absurd (List.eq_of_mem_replicate hmem) (by decide)

theorem sumLen_qinstr_ws : sumLen (qInstrTokens ++ [[' ', ' ']]) = 90 := by
  rw [sumLen_append, qInstrTokens_sumLen]
  rfl

/-! ### The wrapped questions prompt for a 2000-character transcript -/

theorem wrapChars_q_x2000 :
    wrapChars (questionsPrompt ⟨List.replicate 2000 'x'⟩).data 1500 =
      [questionsInstr.data ++ ' ' :: ' ' :: List.replicate 1410 'x',
       List.replicate 590 'x'] := by
  obtain ⟨ctx2, hchunks⟩ := questionsPrompt_chunks ⟨List.replicate 2000 'x'⟩
  rw [show (⟨List.replicate 2000 'x'⟩ : String).data = List.replicate 2000 'x'
    from rfl, mungeChars_replicate_x] at hchunks
  rw [replicate_x_succ 2000 (by omega)] at hchunks
  rw [takeWhile_isWs_x, dropWhile_isWs_x] at hchunks
  rw [← replicate_x_succ 2000 (by omega)] at hchunks
  have hsplit : splitW ctx2 (List.replicate 2000 'x') =
      [List.replicate 2000 'x'] := by
    have h := splitW_plainWord ctx2 (List.replicate 2000 'x') []
      (replicate_x_ne_nil 2000 (by omega))
      (fun c hc => by
        rw [List.eq_of_mem_replicate hc]
        exact ⟨by decide, by decide⟩)
      (Or.inl rfl)
    rw [List.append_nil] at h
    rw [h, splitW_nil]
  rw [hsplit] at hchunks
  rw [wrapChars_eq_wrapW, hchunks]
  have htf1 : takeFits 1500 0
      (qInstrTokens ++ ([' ', ' '] :: [List.replicate 2000 'x'])) =
      (qInstrTokens ++ [[' ', ' ']], [List.replicate 2000 'x']) := by
    rw [show qInstrTokens ++ ([' ', ' '] :: [List.replicate 2000 'x']) =
      (qInstrTokens ++ [[' ', ' ']]) ++ [List.replicate 2000 'x'] from by
        rw [List.append_assoc]; rfl]
    rw [takeFits_append 1500 0 _ _ (by rw [sumLen_qinstr_ws]; omega)]
    rw [sumLen_qinstr_ws]
    simp only [takeFits, List.length_replicate]
    rw [if_neg (by omega)]
    simp only [List.append_nil]
  have hfl1 : fillLine 1500
      (qInstrTokens ++ ([' ', ' '] :: [List.replicate 2000 'x'])) =
      ((qInstrTokens ++ [[' ', ' ']]) ++ [List.replicate 1410 'x'],
       [List.replicate 590 'x']) := by
    simp only [fillLine, htf1, List.length_replicate]
    rw [if_pos (by omega : (1500 : Nat) < 2000)]
    rw [sumLen_qinstr_ws]
    rw [handleLongWord_no_hyphen 1500 90 (List.replicate 2000 'x')
      (by omega) (by rw [List.length_replicate]; omega)
      (fun c hc => by rw [List.eq_of_mem_replicate hc]; decide)]
    rw [show (1500 : Nat) - 90 = 1410 from by norm_num]
    rw [List.take_replicate, List.drop_replicate]
    rw [Nat.min_eq_left (by omega : (1410 : Nat) ≤ 2000)]
  have hstep1 : wrapStep 1500 true
      (qInstrTokens ++ ([' ', ' '] :: [List.replicate 2000 'x'])) =
      (some (questionsInstr.data ++ ' ' :: ' ' :: List.replicate 1410 'x'),
       [List.replicate 590 'x']) := by
    rw [wrapStep_true_eq, hfl1]
    rw [dropTrailing_append _ [List.replicate 1410 'x'] (List.cons_ne_nil _ _),
      dropTrailing_singleton _ (allSpace_replicate_x 1410 (by omega))]
    rw [if_neg (by decide)]
    simp only [List.flatten_append, qInstrTokens_flatten, List.flatten_cons,
      List.flatten_nil, List.append_nil, List.cons_append, List.nil_append,
      List.append_assoc]
  have hstep2 : wrapStep 1500 false [List.replicate 590 'x'] =
      (some (List.replicate 590 'x'), []) := by
    rw [wrapStep_false_keep _ _ _ (allSpace_replicate_x 590 (by omega))]
    have htf2 : takeFits 1500 0 [List.replicate 590 'x'] =
        ([List.replicate 590 'x'], []) :=
      takeFits_all 1500 0 _
        (by rw [sumLen_cons, sumLen_nil, List.length_replicate]; omega)
    have hfl2 : fillLine 1500 [List.replicate 590 'x'] =
        ([List.replicate 590 'x'], []) := by
      simp only [fillLine, htf2]
    rw [hfl2]
    rw [dropTrailing_singleton _ (allSpace_replicate_x 590 (by omega))]
    rw [if_neg (by decide)]
    simp only [List.flatten_cons, List.flatten_nil, List.append_nil]
  rw [wrapW_cons_of_step 1500 true _ (by decide) _ _ hstep1]
  rw [wrapW_cons_of_step 1500 false _ (List.cons_ne_nil _ _) _ _ hstep2]
  rw [wrapW_nil]

theorem pywrap_q_x2000 :
    pywrap (questionsPrompt ⟨List.replicate 2000 'x'⟩) 1500 =
      [⟨questionsInstr.data ++ ' ' :: ' ' :: List.replicate 1410 'x'⟩,
       ⟨List.replicate 590 'x'⟩] := by
  simp only [pywrap, wrapChars_q_x2000, List.map_cons, List.map_nil]

/-- C2 (amended): when a prompt wraps into more than one chunk, the
model is invoked once per chunk with that chunk alone as the entire
prompt and the outputs are joined with newlines; the instruction
template prepended by `generate_summary` (resp. `generate_questions`)
is a prefix of the first chunk, and — provided that instruction text
does not occur inside the whitespace-normalized transcript — it is
absent from every chunk after the first. -/
theorem C2_instruction_only_first (f : String → String) (t : String)
    (hmultiS : 1 < (pywrap (summaryPrompt t) 1500).length)
    (hmultiQ : 1 < (pywrap (questionsPrompt t) 1500).length)
    (hnoS : ¬ summaryInstr.data <:+: mungeChars t.data)
    (hnoQ : ¬ questionsInstr.data <:+: mungeChars t.data) :
    ((chunked_generate (fun s => .ok (f s)) (summaryPrompt t)).1 =
      pywrap (summaryPrompt t) 1500 ∧
     (chunked_generate (fun s => .ok (f s)) (summaryPrompt t)).2 =
      .ok (String.intercalate "\n" ((pywrap (summaryPrompt t) 1500).map f)) ∧
     summaryInstr.data <+: ((pywrap (summaryPrompt t) 1500).headI).data ∧
     ∀ ch ∈ (pywrap (summaryPrompt t) 1500).tail,
       ¬ summaryInstr.data <:+: ch.data) ∧
    ((chunked_generate (fun s => .ok (f s)) (questionsPrompt t)).1 =
      pywrap (questionsPrompt t) 1500 ∧
     (chunked_generate (fun s => .ok (f s)) (questionsPrompt t)).2 =
      .ok (String.intercalate "\n"
        ((pywrap (questionsPrompt t) 1500).map f)) ∧
     questionsInstr.data <+:
       ((pywrap (questionsPrompt t) 1500).headI).data ∧
     ∀ ch ∈ (pywrap (questionsPrompt t) 1500).tail,
       ¬ questionsInstr.data <:+: ch.data) := by
  obtain ⟨ctx2, hchS⟩ := summaryPrompt_chunks t
  obtain ⟨ctx3, hchQ⟩ := questionsPrompt_chunks t
  have hS := pywrap_prompt_instr_head_tail (summaryPrompt t) t instrTokens
    summaryInstr.data ctx2 hchS instrTokens_flatten (by simp [instrTokens])
    (by rw [instrTokens_sumLen]; omega) dropTrailing_instrTokens
    (by decide) hnoS
  have hQ := pywrap_prompt_instr_head_tail (questionsPrompt t) t qInstrTokens
    questionsInstr.data ctx3 hchQ qInstrTokens_flatten
    (by simp [qInstrTokens]) (by rw [qInstrTokens_sumLen]; omega)
    dropTrailing_qInstrTokens (by decide) hnoQ
  exact ⟨⟨by simp [chunked_generate, runChunks_ok, Except.map],
    by simp [chunked_generate, runChunks_ok, Except.map], hS.1, hS.2⟩,
    by simp [chunked_generate, runChunks_ok, Except.map],
    by simp [chunked_generate, runChunks_ok, Except.map], hQ.1, hQ.2⟩

/-- C2 witness: the 2000-`x` transcript makes both prompts wrap into
two chunks, contains no copy of either instruction, and indeed no chunk
after the first contains the respective instruction. -/
theorem C2_instruction_only_first_witness :
    1 < (pywrap (summaryPrompt ⟨List.replicate 2000 'x'⟩) 1500).length ∧
    1 < (pywrap (questionsPrompt ⟨List.replicate 2000 'x'⟩) 1500).length ∧
    (¬ summaryInstr.data <:+:
      mungeChars ((⟨List.replicate 2000 'x'⟩ : String)).data) ∧
    (¬ questionsInstr.data <:+:
      mungeChars ((⟨List.replicate 2000 'x'⟩ : String)).data) ∧
    (∀ ch ∈ (pywrap (summaryPrompt ⟨List.replicate 2000 'x'⟩) 1500).tail,
      ¬ summaryInstr.data <:+: ch.data) ∧
    (∀ ch ∈ (pywrap (questionsPrompt ⟨List.replicate 2000 'x'⟩) 1500).tail,
      ¬ questionsInstr.data <:+: ch.data) := by
  have hmS : 1 < (pywrap (summaryPrompt
      ⟨List.replicate 2000 'x'⟩) 1500).length := by
    rw [pywrap_x2000]
    simp only [List.length_cons, List.length_nil]
    omega
  have hmQ : 1 < (pywrap (questionsPrompt
      ⟨List.replicate 2000 'x'⟩) 1500).length := by
    rw [pywrap_q_x2000]
    simp only [List.length_cons, List.length_nil]
    omega
  have hnS : ¬ summaryInstr.data <:+:
      mungeChars ((⟨List.replicate 2000 'x'⟩ : String)).data := by
    rw [show ((⟨List.replicate 2000 'x'⟩ : String)).data =
      List.replicate 2000 'x' from rfl, mungeChars_replicate_x]
    exact not_instr_in_replicate_x 2000
  have hnQ : ¬ questionsInstr.data <:+:
      mungeChars ((⟨List.replicate 2000 'x'⟩ : String)).data := by
    rw [show ((⟨List.replicate 2000 'x'⟩ : String)).data =
      List.replicate 2000 'x' from rfl, mungeChars_replicate_x]
    exact not_qinstr_in_replicate_x 2000
  have h := C2_instruction_only_first id ⟨List.replicate 2000 'x'⟩
    hmS hmQ hnS hnQ
  exact ⟨hmS, hmQ, hnS, hnQ, h.1.2.2.2, h.2.2.2.2⟩

end AILecture
